import Mathlib

/-!
# Verification of the `errd` execution-scope engine

A shallow embedding of the core of the `errd` Go package: the scope engine
that coordinates error checking (`Must`), cleanup registration (`Defer`,
`DeferFunc`), handler chains, panic interception (`doRecover`), and the drain
loop (`doDefers`), as implemented in `config.go`, `defer.go` and the engine
file (provided unnamed).

Modelling conventions:
* Go `error` values are modelled by the inductive `Err`; `nil` errors are
  `Option.none`.  The distinguished package-level error values
  (`errOurPanic`, `errNilFunc`, the `notSupported` format error and the
  `errd: paniced: %v` wrapping produced in `doRecover`) are constructors.
* A Go panic value (`interface{}`) is a `PanicVal`: either an error value or
  a non-error value represented by its textual form.
* The engine state `core` (fields `runner/config`, `deferred`, `err`,
  `context`) is the structure `Core`.  The `inPanic` flag lives in the
  config in Go and is copied on write; observationally it is a state field.
* Control flow by panic/recover is explicit: functions that can panic return
  an `Option PanicVal` (`some v` means a panic with value `v` is unwinding).
* The user callback passed to `Run` is a straight-line program: a list of
  `Cmd` values, one per call the callback makes on the scope handle `E`.
* Executions are instrumented with an event trace (`Event`) recording
  cleanup registrations, cleanup invocations, handler invocations (with the
  `State` view they are shown), writes to the pending-error slot `e.err`,
  and `IsSentinel` results.  Events are observations only; no engine code
  branches on them.
-/

/-- Go `error` values occurring in the engine.  `user n` stands for an
arbitrary caller-created error; the remaining constructors are the
package's own distinguished error values. -/
inductive Err where
  /-- An arbitrary user error value. -/
  | user (n : ℕ)
  /-- `errOurPanic = errors.New("errd: our panic")`: the internal abort signal. -/
  | ourPanic
  /-- `fmt.Errorf("errd: paniced: %v", r)`: a recovered non-error panic value
  wrapped with the fixed marker; `s` is the textual form of the value. -/
  | paniced (s : String)
  /-- `errNilFunc = errors.New("errd: nil DeferFunc")`. -/
  | nilFunc
  /-- `fmt.Errorf("errd: type %T not supported by Defer", x)`; `ty` is the type name. -/
  | notSupported (ty : String)
  deriving DecidableEq, Repr

/-- A Go panic value: either an `error` or some other value (kept as its
textual representation, which is all `doRecover` uses of it). -/
inductive PanicVal where
  | err (e : Err)
  | other (s : String)
  deriving DecidableEq, Repr

/-- The conversion in `doRecover`:
`err2, ok := r.(error); if !ok { err2 = fmt.Errorf("errd: paniced: %v", r) }`. -/
def panicToError : PanicVal → Err
  | .err e => e
  | .other s => .paniced s

/-- The read-only projection of engine state passed to handlers and defer
functions (Go interface `State`): `Err()`, `Panicking()`, `Context()`
(`none` plays the role of `context.TODO()`). -/
structure StateView where
  err : Option Err
  panicking : Bool
  context : Option ℕ
  deriving Repr

/-- An error handler (Go interface `Handler` / adapter `HandlerFunc`):
`Handle(s State, err error) error`.  Handlers carry a numeric identity so
that their invocations can be observed in the event trace. -/
structure Handler where
  id : ℕ
  run : StateView → Err → Option Err

/-- The built-in `Discard` handler: `func discard(s State, err error) error { return nil }`. -/
def Discard : Handler := ⟨0, fun _ _ => none⟩

/-- Result of invoking a cleanup function (`DeferFunc`): it returns an error
or nil, or panics. -/
inductive DeferResult where
  | ok
  | fail (e : Err)
  | panic' (v : PanicVal)

/-- A cleanup invocation `func(s State, x interface{}) error` together with
its target, as one closure over the target; `id` identifies the
registration in the event trace. -/
structure DeferAction where
  id : ℕ
  run : StateView → DeferResult

/-- One element of `e.deferred` (Go `deferData`): either a real entry
(`f != nil`) or a handler marker (`f == nil`, `x` holding a `Handler`)
that applies to the entry pushed after it. -/
inductive DeferEntry where
  | handler (h : Handler)
  | entry (a : DeferAction)

/-- `d.f == nil` in Go: this element is a handler marker. -/
def DeferEntry.isMarker : DeferEntry → Bool
  | .handler _ => true
  | .entry _ => false

/-- Observable execution events (instrumentation of the embedding; the
engine never reads them). -/
inductive Event where
  /-- A cleanup entry with this id was pushed onto `e.deferred`. -/
  | registered (id : ℕ)
  /-- A cleanup entry was invoked; `seen` is the `Err()` the passed `State` reports. -/
  | cleanup (id : ℕ) (seen : Option Err)
  /-- A handler was invoked (`errorHandler.handle`); `isDefault` is true when it
  came from the configured default chain, `seen` is the `Err()` of the `State`
  it was shown, `input` the error passed to it. -/
  | handlerRun (isDefault : Bool) (hid : ℕ) (seen : Option Err) (input : Err)
  /-- The pending-error slot `e.err` was assigned this error; `fromFault` is
  true for the unconditional assignment in `doRecover`'s panic branch. -/
  | errWrite (fromFault : Bool) (e : Err)
  /-- `IsSentinel` returned this value to the callback. -/
  | sentinelResult (b : Bool)
  deriving DecidableEq, Repr

/-- The engine state (Go struct `core`, together with the `inPanic` flag the
Go code keeps in the shared-then-copied config).  `deferred` is kept with
the top of the stack at the head (Go appends at the slice end and pops from
the end). -/
structure Core where
  defaultHandlers : List Handler
  inPanic : Bool
  deferred : List DeferEntry
  err : Option Err
  context : Option ℕ

/-- The `State` view of a core (`state.Err`, `state.Panicking`, `state.Context`). -/
def Core.view (c : Core) : StateView := ⟨c.err, c.inPanic, c.context⟩

/-- Running a handler chain: the loop `for _, h := range hs { if eh.handle(h)
{ return } }` over `errorHandler.handle`, which stops at the first handler
returning nil and otherwise threads the replacement error to the next
handler.  Returns the emitted events and the final error (`none` when some
handler cleared it). -/
def runChain (isDefault : Bool) (c : Core) : List Handler → Err → List Event × Option Err
  | [], err => ([], some err)
  | h :: hs, err =>
    let ev := Event.handlerRun isDefault h.id c.err err
    match h.run c.view err with
    | none => ([ev], none)
    | some err' =>
      let (evs, r) := runChain isDefault c hs err'
      (ev :: evs, r)

/-- The handler-selection policy shared by `processError`,
`processDeferError` and the sentinel path: run the explicitly supplied
handlers; only when none were supplied, run the configured default
handlers. -/
def runSiteChain (c : Core) (err : Err) (handlers : List Handler) : List Event × Option Err :=
  match runChain false c handlers err with
  | (ev1, none) => (ev1, none)
  | (ev1, some err1) =>
    if handlers.isEmpty then
      let (ev2, r2) := runChain true c c.defaultHandlers err1
      (ev1 ++ ev2, r2)
    else (ev1, some err1)

/-- The handler markers at the top of the deferred stack: the Go loop
`for i := len(e.deferred); i > 0 && e.deferred[i-1].f == nil; i--`, with the
`x.(Handler)` cast. -/
def markerHandlers (l : List DeferEntry) : List Handler :=
  (l.takeWhile DeferEntry.isMarker).filterMap fun d =>
    match d with
    | .handler h => some h
    | .entry _ => none

/-- `processDeferError`: route an error returned by a cleanup entry through
the handler markers sitting below it on the stack (first listed handler
first), else through the default handlers, then store it in `e.err` only if
no error is pending.  Returns the events and the new value of the `e.err`
slot (the deferred stack itself is not modified here). -/
def processDeferError (c : Core) (err : Err) : List Event × Option Err :=
  match runSiteChain c err (markerHandlers c.deferred) with
  | (ev, none) => (ev, c.err)
  | (ev, some err') =>
    if c.err = none then (ev ++ [Event.errWrite false err'], some err')
    else (ev, c.err)

/-- The loop body of `doDefers` on an explicit stack (kept equal to
`c.deferred`): pop the top element; skip handler markers; invoke entries,
routing a returned error through `processDeferError`; stop and report a
panic raised by an entry. -/
def doDefersGo : List DeferEntry → Core → List Event × Core × Option PanicVal
  | [], c => ([], c, none)
  | d :: rest, c =>
    let c1 : Core := { c with deferred := rest }
    match d with
    | .handler _ => doDefersGo rest c1
    | .entry a =>
      let ev0 := Event.cleanup a.id c1.err
      match a.run c1.view with
      | .ok =>
        let (evs, c', p) := doDefersGo rest c1
        (ev0 :: evs, c', p)
      | .fail err =>
        let (ev1, newErr) := processDeferError c1 err
        let c2 : Core := { c1 with err := newErr }
        let (evs, c', p) := doDefersGo rest c2
        (ev0 :: ev1 ++ evs, c', p)
      | .panic' v => ([ev0], c1, some v)

/-- `doDefers(e, 0)`: drain the whole deferred stack.  (`doDefers` is only
ever called with barrier 0; the `DeferScope` caller with a nonzero barrier
is commented out in the source.) -/
def doDefers (c : Core) : List Event × Core × Option PanicVal :=
  doDefersGo c.deferred c

/-- `bail`: `doDefers(e, 0); panic(errOurPanic)`.  If a cleanup entry itself
panics during the drain, that panic propagates instead of `errOurPanic`. -/
def bail (c : Core) : List Event × Core × PanicVal :=
  match doDefers c with
  | (ev, c1, none) => (ev, c1, PanicVal.err .ourPanic)
  | (ev, c1, some v) => (ev, c1, v)

/-- The part of `processError` before `bail`: run the site chain and, when
the error survives, store it in `e.err` if and only if no error is pending.
Returns the surviving error (`none` when a handler cleared it, in which case
the Go function returns to the caller without bailing). -/
def processErrorCore (c : Core) (err : Err) (handlers : List Handler) :
    List Event × Core × Option Err :=
  match runSiteChain c err handlers with
  | (ev, none) => (ev, c, none)
  | (ev, some err') =>
    if c.err = none then
      (ev ++ [Event.errWrite false err'], { c with err := some err' }, some err')
    else (ev, c, some err')

/-- `processError`: the site chain and store of `processErrorCore` followed
by `bail` whenever the error survived handling.  `some v` in the result is
the panic unwinding out of the `Must`/`Assert` call. -/
def processError (c : Core) (err : Err) (handlers : List Handler) :
    List Event × Core × Option PanicVal :=
  match processErrorCore c err handlers with
  | (ev, c1, none) => (ev, c1, none)
  | (ev, c1, some _) =>
    let (ev2, c2, v) := bail c1
    (ev ++ ev2, c2, some v)

/-- Modelled from the spec: `processErrorSentinel` is called by `E.IsSentinel`
(provided source) but its definition is not among the provided sources.
Per the spec (§4.5 sentinel-comparison primitive, testable property 6) and
the repository's sentinel tests: the observed non-sentinel error is funnelled
through the same fail-now handler pipeline as `Must` (explicit handlers
first, else defaults); if a handler clears the error the call returns false
without aborting; if the handler-processed error equals the sentinel the
call returns true without aborting; otherwise the processed error is stored
if none is pending, cleanups drain, and the block aborts. -/
def processErrorSentinel (c : Core) (err sentinel : Err) (handlers : List Handler) :
    List Event × Core × Bool × Option PanicVal :=
  match runSiteChain c err handlers with
  | (ev, none) => (ev, c, false, none)
  | (ev, some err') =>
    if err' = sentinel then (ev, c, true, none)
    else if c.err = none then
      match bail { c with err := some err' } with
      | (ev2, c2, v) => (ev ++ [Event.errWrite false err'] ++ ev2, c2, false, some v)
    else
      match bail c with
      | (ev2, c2, v) => (ev ++ ev2, c2, false, some v)

/-- `doRecover`, by structural recursion on an explicit depth bound.  The Go
function recurses through `finishDefer` (which re-installs `doRecover` as a
deferred handler around a further `doDefers`); every nested recovery starts
from a strictly shorter deferred stack, so the recursion depth is bounded by
the stack length, which `doRecover` below passes as the bound.  Arguments:
`slot` is the caller's named return value `err` (written through the `*error`
argument), `r` the value returned by `recover()` (`none`: no panic).  Result:
events, final core, final `slot`, and the panic re-raised out of `doRecover`
(if any).
* `r = errOurPanic`: `finishDefer(e, err); *err = *e.err`.
* any other panic: mark `inPanic`, convert the value to an error and store it
  unconditionally in `e.err`, `finishDefer(e, err)`, then re-`panic(r)`.
`finishDefer` is inlined: when the stack is nonempty it runs `doDefers` with
a recursive `doRecover` deferred around it.  With an adequate bound the
`fuel = 0` equation is only reached with an empty deferred stack, where it
coincides with the nonempty-fuel empty-stack behaviour. -/
def doRecoverGo : ℕ → Core → Option Err → Option PanicVal →
    List Event × Core × Option Err × Option PanicVal
  | _, c, slot, none => ([], c, slot, none)
  | 0, c, slot, some v =>
    -- with an adequate bound, fuel 0 means the deferred stack is empty:
    -- `finishDefer` does nothing; the ourPanic case then runs `*err = *e.err`
    -- and absorbs the panic, the default case marks `inPanic`, stores the
    -- converted fault and re-raises.
    if v = PanicVal.err .ourPanic then ([], c, c.err, none)
    else ([Event.errWrite true (panicToError v)],
      { c with inPanic := true, err := some (panicToError v) }, slot, some v)
  | fuel + 1, c, slot, some v =>
    if v = PanicVal.err .ourPanic then
      match c.deferred with
      | [] => ([], c, c.err, none)
      | _ :: _ =>
        match doDefers c with
        | (ev1, c1, p1) =>
          match doRecoverGo fuel c1 slot p1 with
          | (ev2, c2, _, none) => (ev1 ++ ev2, c2, c2.err, none)
          | (ev2, c2, slot2, some v2) => (ev1 ++ ev2, c2, slot2, some v2)
    else
      match ({ c with inPanic := true, err := some (panicToError v) } : Core).deferred with
      | [] => ([Event.errWrite true (panicToError v)],
          { c with inPanic := true, err := some (panicToError v) }, slot, some v)
      | _ :: _ =>
        match doDefers { c with inPanic := true, err := some (panicToError v) } with
        | (ev1, c1, p1) =>
          match doRecoverGo fuel c1 slot p1 with
          | (ev2, c2, slot2, none) =>
            (Event.errWrite true (panicToError v) :: ev1 ++ ev2, c2, slot2, some v)
          | (ev2, c2, slot2, some v2) =>
            (Event.errWrite true (panicToError v) :: ev1 ++ ev2, c2, slot2, some v2)

/-- `doRecover` with the adequate depth bound. -/
def doRecover (c : Core) (slot : Option Err) (r : Option PanicVal) :
    List Event × Core × Option Err × Option PanicVal :=
  doRecoverGo c.deferred.length c slot r

/-- The argument accepted by `E.Defer`: a supported function value (one of
the `func()`, `func() error`, `func(error)`, `func(error) error` forms,
embodied as a `DeferAction`), `nil` (for which `Defer` does nothing), or a
value of an unsupported type. -/
inductive DeferArg where
  | nilArg
  | supported (a : DeferAction)
  | unsupported (ty : String)

/-- One call the callback makes on the scope handle `E`. -/
inductive Cmd where
  /-- `e.Must(err, h...)` (also the shape of `Assert`/`Assertf`, which build
  an error and call `processError`). -/
  | must (err : Option Err) (hs : List Handler)
  /-- `e.Defer(x, h...)`. -/
  | deferCmd (x : DeferArg) (hs : List Handler)
  /-- `e.DeferFunc(x, f, h...)`; `none` models a nil `DeferFunc`. -/
  | deferFuncCmd (f : Option DeferAction) (hs : List Handler)
  /-- The callback itself panics with this value at this point. -/
  | panicCmd (v : PanicVal)
  /-- `e.IsSentinel(sentinel, err, h...)`. -/
  | isSentinelCmd (sentinel : Err) (err : Option Err) (hs : List Handler)

/-- The push performed by `Defer`/`DeferFunc`: handler markers appended in
reverse order, then the real entry — so that, reading the stack from the
top, the entry comes first, followed by the handlers in listed order. -/
def pushDefer (c : Core) (a : DeferAction) (hs : List Handler) : Core :=
  { c with deferred := .entry a :: hs.map .handler ++ c.deferred }

/-- `E.IsSentinel`: `switch err { case sentinel: return true; case nil:
return false }; return processErrorSentinel(e, err, sentinel, h)`.  The
`sentinelResult` event records the value returned to the callback; no value
is returned when the call aborts the block. -/
def isSentinelStep (c : Core) (sentinel : Err) (err : Option Err) (hs : List Handler) :
    List Event × Core × Option PanicVal :=
  match err with
  | none => ([Event.sentinelResult false], c, none)
  | some e =>
    if e = sentinel then ([Event.sentinelResult true], c, none)
    else
      match processErrorSentinel c e sentinel hs with
      | (ev, c', b, none) => (ev ++ [Event.sentinelResult b], c', none)
      | (ev, c', _, some v) => (ev, c', some v)

/-- Execute one callback call against the engine. -/
def stepCmd (cmd : Cmd) (c : Core) : List Event × Core × Option PanicVal :=
  match cmd with
  | .must none _ => ([], c, none)
  | .must (some err) hs => processError c err hs
  | .deferCmd .nilArg _ => ([], c, none)
  | .deferCmd (.supported a) hs => ([Event.registered a.id], pushDefer c a hs, none)
  | .deferCmd (.unsupported ty) hs =>
    ([], { c with deferred := hs.map .handler ++ c.deferred },
      some (.err (.notSupported ty)))
  | .deferFuncCmd none _ => ([], c, some (.err .nilFunc))
  | .deferFuncCmd (some a) hs => ([Event.registered a.id], pushDefer c a hs, none)
  | .panicCmd v => ([], c, some v)
  | .isSentinelCmd s err hs => isSentinelStep c s err hs

/-- Execute the callback: commands run in order until one unwinds by
panic, in which case the remaining commands never execute. -/
def runBody : List Cmd → Core → List Event × Core × Option PanicVal
  | [], c => ([], c, none)
  | cmd :: rest, c =>
    match stepCmd cmd c with
    | (ev, c1, none) =>
      let (ev2, c2, p) := runBody rest c1
      (ev ++ ev2, c2, p)
    | (ev, c1, some v) => (ev, c1, some v)

/-- How a `Run` call finishes: returning an error value (possibly nil), or
propagating a panic to its caller. -/
inductive RunOutcome where
  | ret (err : Option Err)
  | panic' (v : PanicVal)
  deriving DecidableEq, Repr

/-- The observable result of a block execution. -/
structure RunResult where
  events : List Event
  finalCore : Core
  outcome : RunOutcome

/-- The fresh engine state built at the top of `Run`/`RunWithContext`. -/
def initCore (defaults : List Handler) (ctx : Option ℕ) : Core :=
  ⟨defaults, false, [], none, ctx⟩

/-- `Runner.RunWithContext` (and `Runner.Run`, which differs only by leaving
the context unset): build a fresh `E`, run the callback under a deferred
`doRecover`, then `doDefers(e, 0)` and return `*e.err` (or nil).  A panic in
the callback or in a drain reaches the deferred `doRecover`, which may
absorb it (internal abort) or re-raise. -/
def runWithContext (defaults : List Handler) (ctx : Option ℕ) (cmds : List Cmd) :
    RunResult :=
  let c0 := initCore defaults ctx
  match runBody cmds c0 with
  | (ev1, c1, none) =>
    match doDefers c1 with
    | (ev2, c2, none) => ⟨ev1 ++ ev2, c2, .ret c2.err⟩
    | (ev2, c2, some v) =>
      match doRecover c2 none (some v) with
      | (ev3, c3, slot, none) => ⟨ev1 ++ ev2 ++ ev3, c3, .ret slot⟩
      | (ev3, c3, _, some v') => ⟨ev1 ++ ev2 ++ ev3, c3, .panic' v'⟩
  | (ev1, c1, some v) =>
    match doRecover c1 none (some v) with
    | (ev3, c3, slot, none) => ⟨ev1 ++ ev3, c3, .ret slot⟩
    | (ev3, c3, _, some v') => ⟨ev1 ++ ev3, c3, .panic' v'⟩

/-- `Run` = `RunWithContext` with no context. -/
def runScope (defaults : List Handler) (cmds : List Cmd) : RunResult :=
  runWithContext defaults none cmds

/-! ## Trace observations -/

/-- Ids of invoked cleanup entries, in invocation order. -/
def cleanIds (ev : List Event) : List ℕ :=
  ev.filterMap fun x => match x with | .cleanup id _ => some id | _ => none

/-- Ids of registered cleanup entries, in registration order. -/
def regIds (ev : List Event) : List ℕ :=
  ev.filterMap fun x => match x with | .registered id => some id | _ => none

/-- Ids of the real entries (not handler markers) on a deferred stack, top first. -/
def entryIds (l : List DeferEntry) : List ℕ :=
  l.filterMap fun d => match d with | .entry a => some a.id | _ => none

/-- The pending-error writes performed by checked-error and cleanup-error
processing (`processError`, `processDeferError`, the sentinel path), in order. -/
def userWrites (ev : List Event) : List Err :=
  ev.filterMap fun x => match x with | .errWrite false e => some e | _ => none

/-- All pending-error writes, fault-processing ones included, in order. -/
def allWrites (ev : List Event) : List Err :=
  ev.filterMap fun x => match x with | .errWrite _ e => some e | _ => none

/-- Replay the `errWrite` events of a trace over an initial pending-error
slot value; the result is the slot value after the trace. -/
def trackErr (e0 : Option Err) (ev : List Event) : Option Err :=
  ev.foldl (fun acc x => match x with | .errWrite _ e => some e | _ => acc) e0

/-- A trace is write-disciplined for an initial slot value: every
non-fault `errWrite` happens while the slot is empty (fault writes are
unconditional). -/
def userWritesOK : Option Err → List Event → Prop
  | _, [] => True
  | acc, .errWrite false e :: rest => acc = none ∧ userWritesOK (some e) rest
  | _, .errWrite true e :: rest => userWritesOK (some e) rest
  | acc, _ :: rest => userWritesOK acc rest

/-! ## List helpers -/

theorem trackErr_append (e0 : Option Err) (a b : List Event) :
    trackErr e0 (a ++ b) = trackErr (trackErr e0 a) b := by
  simp [trackErr, List.foldl_append]

theorem cleanIds_append (a b : List Event) : cleanIds (a ++ b) = cleanIds a ++ cleanIds b := by
  simp [cleanIds, List.filterMap_append]

theorem regIds_append (a b : List Event) : regIds (a ++ b) = regIds a ++ regIds b := by
  simp [regIds, List.filterMap_append]

theorem userWrites_append (a b : List Event) :
    userWrites (a ++ b) = userWrites a ++ userWrites b := by
  simp [userWrites, List.filterMap_append]

theorem allWrites_append (a b : List Event) :
    allWrites (a ++ b) = allWrites a ++ allWrites b := by
  simp [allWrites, List.filterMap_append]

theorem userWritesOK_append {e0 : Option Err} {a b : List Event}
    (ha : userWritesOK e0 a) (hb : userWritesOK (trackErr e0 a) b) :
    userWritesOK e0 (a ++ b) := by
  induction a generalizing e0 with
  | nil => simpa [trackErr] using hb
  | cons x rest ih =>
    match x with
    | .errWrite false e =>
      obtain ⟨h1, h2⟩ := ha
      exact ⟨h1, ih h2 (by simpa [trackErr] using hb)⟩
    | .errWrite true e => exact ih ha (by simpa [trackErr] using hb)
    | .registered _ => exact ih ha (by simpa [trackErr] using hb)
    | .cleanup _ _ => exact ih ha (by simpa [trackErr] using hb)
    | .handlerRun _ _ _ _ => exact ih ha (by simpa [trackErr] using hb)
    | .sentinelResult _ => exact ih ha (by simpa [trackErr] using hb)

/-- A trace with no `errWrite` leaves the tracked slot unchanged and is
trivially write-disciplined. -/
theorem trackErr_no_writes {ev : List Event} (h : allWrites ev = []) (e0 : Option Err) :
    trackErr e0 ev = e0 := by
  induction ev generalizing e0 with
  | nil => rfl
  | cons x rest ih =>
    match x with
    | .errWrite b e => simp [allWrites] at h
    | .registered _ => exact ih (by simpa [allWrites] using h) e0
    | .cleanup _ _ => exact ih (by simpa [allWrites] using h) e0
    | .handlerRun _ _ _ _ => exact ih (by simpa [allWrites] using h) e0
    | .sentinelResult _ => exact ih (by simpa [allWrites] using h) e0

theorem userWritesOK_no_writes {ev : List Event} (h : allWrites ev = []) (e0 : Option Err) :
    userWritesOK e0 ev := by
  induction ev generalizing e0 with
  | nil => trivial
  | cons x rest ih =>
    match x with
    | .errWrite b e => simp [allWrites] at h
    | .registered _ => exact ih (by simpa [allWrites] using h) e0
    | .cleanup _ _ => exact ih (by simpa [allWrites] using h) e0
    | .handlerRun _ _ _ _ => exact ih (by simpa [allWrites] using h) e0
    | .sentinelResult _ => exact ih (by simpa [allWrites] using h) e0

/-- Once the slot is occupied, a write-disciplined trace performs no
further non-fault writes. -/
theorem userWritesOK_some {ev : List Event} {e : Err}
    (h : userWritesOK (some e) ev) : userWrites ev = [] := by
  induction ev generalizing e with
  | nil => rfl
  | cons x rest ih =>
    match x with
    | .errWrite false e' => exact absurd h.1 (by simp)
    | .errWrite true e' => simpa [userWrites] using ih h
    | .registered _ => simpa [userWrites] using ih h
    | .cleanup _ _ => simpa [userWrites] using ih h
    | .handlerRun _ _ _ _ => simpa [userWrites] using ih h
    | .sentinelResult _ => simpa [userWrites] using ih h

/-- A write-disciplined trace starting from an empty slot performs at most
one non-fault write. -/
theorem userWritesOK_length {ev : List Event}
    (h : userWritesOK none ev) : (userWrites ev).length ≤ 1 := by
  induction ev with
  | nil => simp [userWrites]
  | cons x rest ih =>
    match x with
    | .errWrite false e =>
      have h2 : userWrites rest = [] := userWritesOK_some h.2
      have hc : userWrites (Event.errWrite false e :: rest) = e :: userWrites rest := rfl
      rw [hc, h2]
      simp
    | .errWrite true e =>
      have h2 : userWrites rest = [] := @userWritesOK_some rest e h
      have hc : userWrites (Event.errWrite true e :: rest) = userWrites rest := rfl
      rw [hc, h2]
      simp
    | .registered _ => simpa [userWrites] using ih h
    | .cleanup _ _ => simpa [userWrites] using ih h
    | .handlerRun _ _ _ _ => simpa [userWrites] using ih h
    | .sentinelResult _ => simpa [userWrites] using ih h

/-- In a write-disciplined fault-free trace starting from an empty slot, the
final slot value is the first (hence only) non-fault write. -/
theorem trackErr_head {ev : List Event} (h : userWritesOK none ev)
    (hf : ∀ e, Event.errWrite true e ∉ ev) :
    trackErr none ev = (userWrites ev).head? := by
  induction ev with
  | nil => rfl
  | cons x rest ih =>
    match x with
    | .errWrite false e =>
      have : userWrites rest = [] := userWritesOK_some h.2
      have : trackErr (some e) rest = some e := by
        have hall : allWrites rest = [] := by
          have hu := @userWritesOK_some rest e h.2
          by_contra hne
          obtain ⟨w, hw⟩ := List.exists_mem_of_ne_nil _ hne
          obtain ⟨y, hy, hxy⟩ := List.mem_filterMap.mp hw
          match y, hxy with
          | .errWrite false e', _ =>
            have : e' ∈ userWrites rest := List.mem_filterMap.mpr ⟨_, hy, rfl⟩
            simp [hu] at this
          | .errWrite true e', _ =>
            exact hf e' (List.mem_cons_of_mem _ hy)
        exact trackErr_no_writes hall _
      simp [trackErr, userWrites, List.head?]
      simpa [trackErr] using this
    | .errWrite true e => exact absurd (List.mem_cons_self _ _) (hf e ∘ id)
    | .registered _ =>
      simpa [trackErr, userWrites] using ih h (fun e he => hf e (List.mem_cons_of_mem _ he))
    | .cleanup _ _ =>
      simpa [trackErr, userWrites] using ih h (fun e he => hf e (List.mem_cons_of_mem _ he))
    | .handlerRun _ _ _ _ =>
      simpa [trackErr, userWrites] using ih h (fun e he => hf e (List.mem_cons_of_mem _ he))
    | .sentinelResult _ =>
      simpa [trackErr, userWrites] using ih h (fun e he => hf e (List.mem_cons_of_mem _ he))

/-! ## Handler-chain lemmas -/

/-- Every event a handler chain emits is a handler invocation carrying the
chain's flag and showing the pending error of the core it runs against. -/
theorem runChain_events {flag : Bool} {c : Core} {hs : List Handler} {err : Err} :
    ∀ x ∈ (runChain flag c hs err).1, ∃ h e', h ∈ hs ∧ x = .handlerRun flag h.id c.err e' := by
  induction hs generalizing err with
  | nil => simp [runChain]
  | cons h hs ih =>
    intro x hx
    simp only [runChain] at hx
    match hrun : h.run c.view err with
    | none =>
      rw [hrun] at hx
      simp at hx
      exact ⟨h, err, by simp, hx⟩
    | some err' =>
      rw [hrun] at hx
      simp at hx
      rcases hx with hx | hx
      · exact ⟨h, err, by simp, hx⟩
      · obtain ⟨h', e', hmem, hx⟩ := @ih err' x hx
        exact ⟨h', e', by simp [hmem], hx⟩

/-- Traces consisting only of handler invocations register nothing, clean
nothing and write nothing. -/
theorem handlerRun_only {ev : List Event}
    (h : ∀ x ∈ ev, ∃ f i s e, x = Event.handlerRun f i s e) :
    cleanIds ev = [] ∧ regIds ev = [] ∧ allWrites ev = [] ∧ userWrites ev = [] := by
  induction ev with
  | nil => simp [cleanIds, regIds, allWrites, userWrites]
  | cons x rest ih =>
    obtain ⟨f, i, s, e, hx⟩ := h x (by simp)
    have := ih (fun y hy => h y (by simp [hy]))
    subst hx
    simpa [cleanIds, regIds, allWrites, userWrites] using this

theorem runChain_proj {flag : Bool} {c : Core} {hs : List Handler} {err : Err} :
    cleanIds (runChain flag c hs err).1 = [] ∧ regIds (runChain flag c hs err).1 = [] ∧
    allWrites (runChain flag c hs err).1 = [] ∧ userWrites (runChain flag c hs err).1 = [] :=
  handlerRun_only fun x hx => by
    obtain ⟨h, e', _, hx⟩ := runChain_events x hx
    exact ⟨flag, h.id, c.err, e', hx⟩

/-- The handler invocations of a chain run follow the chain's listed order:
the emitted event ids are an initial segment of the chain's ids. -/
theorem runChain_order {flag : Bool} {c : Core} {hs : List Handler} {err : Err} :
    ((runChain flag c hs err).1).map
        (fun x => match x with | .handlerRun _ i _ _ => i | _ => 0) =
      (hs.map Handler.id).take ((runChain flag c hs err).1).length := by
  induction hs generalizing err with
  | nil => simp [runChain]
  | cons h hs ih =>
    simp only [runChain]
    match hrun : h.run c.view err with
    | none => simp
    | some err' => simpa using @ih err'

/-- When explicit handlers are supplied, the site chain is exactly the run
of those handlers; the default handlers are not consulted. -/
theorem runSiteChain_of_ne_nil {c : Core} {err : Err} {handlers : List Handler}
    (h : handlers ≠ []) :
    runSiteChain c err handlers = runChain false c handlers err := by
  simp only [runSiteChain]
  match hrc : runChain false c handlers err with
  | (ev1, none) => rfl
  | (ev1, some err1) => simp [List.isEmpty_iff, h]

/-- When no explicit handlers are supplied, the site chain is exactly the
run of the configured default handlers. -/
theorem runSiteChain_nil (c : Core) (err : Err) :
    runSiteChain c err [] = runChain true c c.defaultHandlers err := by
  simp only [runSiteChain, runChain, List.isEmpty]
  match hrc : runChain true c c.defaultHandlers err with
  | (ev2, r2) => simp

theorem runSiteChain_proj {c : Core} {err : Err} {handlers : List Handler} :
    cleanIds (runSiteChain c err handlers).1 = [] ∧
    regIds (runSiteChain c err handlers).1 = [] ∧
    allWrites (runSiteChain c err handlers).1 = [] ∧
    userWrites (runSiteChain c err handlers).1 = [] := by
  rcases List.eq_nil_or_concat' handlers with h | ⟨_, _, h⟩
  · rw [h, runSiteChain_nil]
    exact runChain_proj
  · rw [runSiteChain_of_ne_nil (by simp [h])]
    exact runChain_proj

/-- Every event a site chain emits is a handler invocation showing the
pending error of the core it runs against. -/
theorem runSiteChain_events {c : Core} {err : Err} {handlers : List Handler} :
    ∀ x ∈ (runSiteChain c err handlers).1,
      ∃ f i e', x = .handlerRun f i c.err e' := by
  intro x hx
  rcases List.eq_nil_or_concat' handlers with h | ⟨_, _, h⟩
  · rw [h, runSiteChain_nil] at hx
    obtain ⟨h', e', _, hx⟩ := runChain_events x hx
    exact ⟨true, h'.id, e', hx⟩
  · rw [runSiteChain_of_ne_nil (by simp [h])] at hx
    obtain ⟨h', e', _, hx⟩ := runChain_events x hx
    exact ⟨false, h'.id, e', hx⟩

/-! ## Error-site processing lemmas -/

/-- Membership transported into a site chain's events is a handler event. -/
theorem runSiteChain_no_fault {c : Core} {err : Err} {handlers : List Handler}
    {ev1 : List Event} {r1 : Option Err}
    (hsc : runSiteChain c err handlers = (ev1, r1)) :
    ∀ e, Event.errWrite true e ∉ ev1 := by
  intro e he
  obtain ⟨f, i, s, e', hx⟩ := runSiteChain_events (Event.errWrite true e) (by rw [hsc]; exact he)

/-- A site chain's events contain no writes at all. -/
theorem runSiteChain_no_writes {c : Core} {err : Err} {handlers : List Handler}
    {ev1 : List Event} {r1 : Option Err}
    (hsc : runSiteChain c err handlers = (ev1, r1)) :
    allWrites ev1 = [] ∧ cleanIds ev1 = [] ∧ regIds ev1 = [] := by
  have hproj := @runSiteChain_proj c err handlers
  rw [hsc] at hproj
  exact ⟨hproj.2.2.1, hproj.1, hproj.2.1⟩

/-- `processDeferError` leaves an occupied pending slot untouched, obeys the
write discipline, and its result is the write-replay of its events. -/
theorem processDeferError_spec {c : Core} {err : Err} {ev : List Event} {r : Option Err}
    (h : processDeferError c err = (ev, r)) :
    r = trackErr c.err ev ∧ userWritesOK c.err ev ∧
    cleanIds ev = [] ∧ regIds ev = [] ∧
    (∀ e, Event.errWrite true e ∉ ev) := by
  unfold processDeferError at h
  split at h
  next ev1 hsc =>
    simp only [Prod.mk.injEq] at h
    obtain ⟨rfl, rfl⟩ := h
    obtain ⟨hw, hc, hr⟩ := runSiteChain_no_writes hsc
    exact ⟨(trackErr_no_writes hw _).symm, userWritesOK_no_writes hw _, hc, hr,
      runSiteChain_no_fault hsc⟩
  next ev1 err' hsc =>
    obtain ⟨hw, hc, hr⟩ := runSiteChain_no_writes hsc
    have hnf := runSiteChain_no_fault hsc
    split at h
    next hce =>
      simp only [Prod.mk.injEq] at h
      obtain ⟨rfl, rfl⟩ := h
      refine ⟨?_, ?_, ?_, ?_, ?_⟩
      · rw [trackErr_append, trackErr_no_writes hw]
        rfl
      · exact userWritesOK_append (userWritesOK_no_writes hw _)
          (by rw [trackErr_no_writes hw, hce]; exact ⟨rfl, trivial⟩)
      · rw [cleanIds_append, hc]
        rfl
      · rw [regIds_append, hr]
        rfl
      · intro e he
        rcases List.mem_append.mp he with he | he
        · exact hnf e he
        · simp at he
    next hce =>
      simp only [Prod.mk.injEq] at h
      obtain ⟨rfl, rfl⟩ := h
      exact ⟨(trackErr_no_writes hw _).symm, userWritesOK_no_writes hw _, hc, hr, hnf⟩

/-- Core fields other than `err` are unchanged by `processErrorCore`, the
pending slot follows the write discipline, and the chain's surviving error
is stored exactly when the slot was empty. -/
theorem processErrorCore_spec {c : Core} {err : Err} {hs : List Handler}
    {ev : List Event} {c' : Core} {r : Option Err}
    (h : processErrorCore c err hs = (ev, c', r)) :
    c'.err = trackErr c.err ev ∧ userWritesOK c.err ev ∧
    cleanIds ev = [] ∧ regIds ev = [] ∧
    (∀ e, Event.errWrite true e ∉ ev) ∧
    c'.deferred = c.deferred ∧ c'.defaultHandlers = c.defaultHandlers ∧
    c'.inPanic = c.inPanic ∧ c'.context = c.context := by
  unfold processErrorCore at h
  split at h
  next ev1 hsc =>
    simp only [Prod.mk.injEq] at h
    obtain ⟨rfl, rfl, rfl⟩ := h
    obtain ⟨hw, hc, hr⟩ := runSiteChain_no_writes hsc
    exact ⟨(trackErr_no_writes hw _).symm, userWritesOK_no_writes hw _, hc, hr,
      runSiteChain_no_fault hsc, rfl, rfl, rfl, rfl⟩
  next ev1 err' hsc =>
    obtain ⟨hw, hc, hr⟩ := runSiteChain_no_writes hsc
    have hnf := runSiteChain_no_fault hsc
    split at h
    next hce =>
      simp only [Prod.mk.injEq] at h
      obtain ⟨rfl, rfl, rfl⟩ := h
      refine ⟨?_, ?_, ?_, ?_, ?_, rfl, rfl, rfl, rfl⟩
      · rw [trackErr_append, trackErr_no_writes hw]
        rfl
      · exact userWritesOK_append (userWritesOK_no_writes hw _)
          (by rw [trackErr_no_writes hw, hce]; exact ⟨rfl, trivial⟩)
      · rw [cleanIds_append, hc]
        rfl
      · rw [regIds_append, hr]
        rfl
      · intro e he
        rcases List.mem_append.mp he with he | he
        · exact hnf e he
        · simp at he
    next hce =>
      simp only [Prod.mk.injEq] at h
      obtain ⟨rfl, rfl, rfl⟩ := h
      exact ⟨(trackErr_no_writes hw _).symm, userWritesOK_no_writes hw _, hc, hr, hnf,
        rfl, rfl, rfl, rfl⟩

/-! ## Drain-loop lemmas -/

theorem entryIds_handler (h : Handler) (rest : List DeferEntry) :
    entryIds (.handler h :: rest) = entryIds rest := rfl

theorem entryIds_entry (a : DeferAction) (rest : List DeferEntry) :
    entryIds (.entry a :: rest) = a.id :: entryIds rest := rfl

/-- Master invariant of the drain loop `doDefers`: the invoked cleanups plus
the entries still pending account exactly for the input stack (in stack
order), nothing is registered, a completed drain empties the stack, the
pending slot follows the write discipline and replays the trace, a drain
stopped by an entry's panic has consumed at least that entry, and the drain
never performs fault-writes. -/
theorem doDefersGo_spec (l : List DeferEntry) :
    ∀ (c : Core) {ev : List Event} {c' : Core} {p : Option PanicVal},
    doDefersGo l c = (ev, c', p) → c.deferred = l →
    cleanIds ev ++ entryIds c'.deferred = entryIds l ∧
    regIds ev = [] ∧
    (p = none → c'.deferred = []) ∧
    c'.err = trackErr c.err ev ∧ userWritesOK c.err ev ∧
    c'.defaultHandlers = c.defaultHandlers ∧ c'.inPanic = c.inPanic ∧
    c'.context = c.context ∧
    (∀ e, Event.errWrite true e ∉ ev) ∧
    (∀ v, p = some v → c'.deferred.length < l.length) := by
  induction l with
  | nil =>
    intro c ev c' p h hsync
    simp only [doDefersGo, Prod.mk.injEq] at h
    obtain ⟨rfl, rfl, rfl⟩ := h
    simp [hsync, entryIds, cleanIds, regIds, trackErr, userWritesOK]
  | cons d rest ih =>
    intro c ev c' p h hsync
    match d with
    | .handler hh =>
      simp only [doDefersGo] at h
      obtain ⟨h1, h2, h3, h4, h5, h6, h7, h8, h9, h10⟩ := ih { c with deferred := rest } h rfl
      exact ⟨by simpa [entryIds_handler] using h1, h2, h3, h4, h5, h6, h7, h8, h9,
        fun v hv => Nat.lt_succ_of_lt (h10 v hv)⟩
    | .entry a =>
      simp only [doDefersGo] at h
      set c1 : Core := { c with deferred := rest } with hc1
      split at h
      next heq =>
        rcases hrec : doDefersGo rest c1 with ⟨evs, cr, pr⟩
        rw [hrec] at h
        simp only [Prod.mk.injEq] at h
        obtain ⟨rfl, rfl, rfl⟩ := h
        obtain ⟨h1, h2, h3, h4, h5, h6, h7, h8, h9, h10⟩ := ih c1 hrec rfl
        refine ⟨?_, ?_, h3, ?_, ?_, h6, h7, h8, ?_, ?_⟩
        · simpa [cleanIds, entryIds_entry] using h1
        · simpa [regIds] using h2
        · simpa [trackErr] using h4
        · simpa [userWritesOK] using h5
        · intro e he
          rcases List.mem_cons.mp he with he | he
          · exact Event.noConfusion he
          · exact h9 e he
        · intro v hv
          exact Nat.lt_succ_of_lt (h10 v hv)
      next err heq =>
        rcases hpde : processDeferError c1 err with ⟨ev1, newErr⟩
        rw [hpde] at h
        rcases hrec : doDefersGo rest { c1 with err := newErr } with ⟨evs, cr, pr⟩
        rw [hrec] at h
        simp only [Prod.mk.injEq] at h
        obtain ⟨rfl, rfl, rfl⟩ := h
        obtain ⟨p1, p2, p3, p4, p5⟩ := processDeferError_spec hpde
        obtain ⟨h1, h2, h3, h4, h5, h6, h7, h8, h9, h10⟩ := ih { c1 with err := newErr } hrec rfl
        have hc1err : c1.err = c.err := rfl
        refine ⟨?_, ?_, h3, ?_, ?_, h6, h7, h8, ?_, ?_⟩
        · rw [show cleanIds (Event.cleanup a.id c1.err :: ev1 ++ evs) =
              a.id :: (cleanIds ev1 ++ cleanIds evs) from by
              simp [cleanIds, List.filterMap_append], p3]
          simpa [entryIds_entry] using h1
        · rw [show regIds (Event.cleanup a.id c1.err :: ev1 ++ evs) =
              regIds ev1 ++ regIds evs from by
              simp [regIds, List.filterMap_append], p4, h2]
          rfl
        · rw [show trackErr c.err (Event.cleanup a.id c1.err :: ev1 ++ evs) =
              trackErr (trackErr c.err ev1) evs from by
              simp [trackErr, List.foldl_append]]
          rw [h4, p1]
        · have : userWritesOK c.err (ev1 ++ evs) := by
            refine userWritesOK_append (hc1err ▸ p2) ?_
            rw [← hc1err, ← p1]
            exact h5
          simpa [userWritesOK] using this
        · intro e he
          rcases List.mem_cons.mp he with he | he
          · exact Event.noConfusion he
          · rcases List.mem_append.mp he with he | he
            · exact p5 e he
            · exact h9 e he
        · intro v hv
          exact Nat.lt_succ_of_lt (h10 v hv)
      next v heq =>
        simp only [Prod.mk.injEq] at h
        obtain ⟨rfl, rfl, rfl⟩ := h
        refine ⟨?_, ?_, ?_, ?_, ?_, rfl, rfl, rfl, ?_, ?_⟩
        · simp [cleanIds, entryIds_entry, entryIds]
        · simp [regIds]
        · intro hv
          exact Option.noConfusion hv
        · simp [trackErr]
        · simp [userWritesOK]
        · intro e he
          rcases List.mem_cons.mp he with he | he
          · exact Event.noConfusion he
          · simp at he
        · intro v' hv
          simp

/-- `doDefers` master invariant (instance of `doDefersGo_spec`). -/
theorem doDefers_spec {c : Core} {ev : List Event} {c' : Core} {p : Option PanicVal}
    (h : doDefers c = (ev, c', p)) :
    cleanIds ev ++ entryIds c'.deferred = entryIds c.deferred ∧
    regIds ev = [] ∧
    (p = none → c'.deferred = []) ∧
    c'.err = trackErr c.err ev ∧ userWritesOK c.err ev ∧
    c'.defaultHandlers = c.defaultHandlers ∧ c'.inPanic = c.inPanic ∧
    c'.context = c.context ∧
    (∀ e, Event.errWrite true e ∉ ev) ∧
    (∀ v, p = some v → c'.deferred.length < c.deferred.length) :=
  doDefersGo_spec c.deferred c h rfl

/-- An occupied slot never becomes empty by replaying a trace. -/
theorem trackErr_ne_none {e : Err} (ev : List Event) :
    trackErr (some e) ev ≠ none := by
  induction ev generalizing e with
  | nil => simp [trackErr]
  | cons x rest ih =>
    match x with
    | .errWrite b e' => exact @ih e'
    | .registered _ => exact ih
    | .cleanup _ _ => exact ih
    | .handlerRun _ _ _ _ => exact ih
    | .sentinelResult _ => exact ih

/-- `bail` invariant: a full drain followed by raising the abort signal, or
the pass-through of a panic raised by a cleanup entry mid-drain. -/
theorem bail_spec {c : Core} {ev : List Event} {c' : Core} {v : PanicVal}
    (h : bail c = (ev, c', v)) :
    cleanIds ev ++ entryIds c'.deferred = entryIds c.deferred ∧
    regIds ev = [] ∧
    c'.err = trackErr c.err ev ∧ userWritesOK c.err ev ∧
    c'.defaultHandlers = c.defaultHandlers ∧ c'.inPanic = c.inPanic ∧
    c'.context = c.context ∧
    (∀ e, Event.errWrite true e ∉ ev) ∧
    (v = .err .ourPanic ∧ c'.deferred = [] ∨ doDefers c = (ev, c', some v)) := by
  unfold bail at h
  split at h
  next c1 hdd =>
    simp only [Prod.mk.injEq] at h
    obtain ⟨rfl, rfl, rfl⟩ := h
    obtain ⟨h1, h2, h3, h4, h5, h6, h7, h8, h9, _⟩ := doDefers_spec hdd
    exact ⟨h1, h2, h4, h5, h6, h7, h8, h9, Or.inl ⟨rfl, h3 rfl⟩⟩
  next c1 v1 hdd =>
    simp only [Prod.mk.injEq] at h
    obtain ⟨rfl, rfl, rfl⟩ := h
    obtain ⟨h1, h2, h3, h4, h5, h6, h7, h8, h9, _⟩ := doDefers_spec hdd
    exact ⟨h1, h2, h4, h5, h6, h7, h8, h9, Or.inr hdd⟩

/-- When `processErrorCore` reports a surviving error, the pending slot is
occupied on return (either it already was, or the survivor was stored). -/
theorem processErrorCore_some {c : Core} {err : Err} {hs : List Handler}
    {ev : List Event} {c1 : Core} {e1 : Err}
    (h : processErrorCore c err hs = (ev, c1, some e1)) :
    c1.err ≠ none ∧ (c.err = none → c1.err = some e1) ∧ (c.err ≠ none → c1.err = c.err) := by
  unfold processErrorCore at h
  split at h
  next hsc =>
    simp only [Prod.mk.injEq] at h
    exact absurd h.2.2 (by simp)
  next e' hsc =>
    split at h
    next hce =>
      simp only [Prod.mk.injEq] at h
      obtain ⟨rfl, rfl, he⟩ := h
      obtain rfl := Option.some.inj he
      exact ⟨by simp, fun _ => rfl, fun hne => absurd hce hne⟩
    next hce =>
      simp only [Prod.mk.injEq] at h
      obtain ⟨rfl, rfl, he⟩ := h
      exact ⟨hce, fun hn => absurd hn hce, fun _ => rfl⟩

/-- `processError` invariant: when the error survives its chain, the pending
slot is occupied, the registered cleanups are accounted for by the bail
drain, and the call unwinds; when a handler clears the error, nothing
observable happens beyond the handler invocations. -/
theorem processError_spec {c : Core} {err : Err} {hs : List Handler}
    {ev : List Event} {c' : Core} {p : Option PanicVal}
    (h : processError c err hs = (ev, c', p)) :
    regIds ev = [] ∧
    c'.err = trackErr c.err ev ∧ userWritesOK c.err ev ∧
    c'.defaultHandlers = c.defaultHandlers ∧ c'.inPanic = c.inPanic ∧
    c'.context = c.context ∧
    (∀ e, Event.errWrite true e ∉ ev) ∧
    (p = none → cleanIds ev = [] ∧ c'.deferred = c.deferred) ∧
    (∀ v, p = some v →
      cleanIds ev ++ entryIds c'.deferred = entryIds c.deferred ∧
      c'.err ≠ none ∧
      (v = .err .ourPanic ∧ c'.deferred = [] ∨
        ∃ ev1 c1 evd, doDefers c1 = (evd, c', some v) ∧
          c1.deferred = c.deferred ∧ c1.err ≠ none ∧ ev = ev1 ++ evd)) := by
  unfold processError at h
  split at h
  next c1 hpec =>
    simp only [Prod.mk.injEq] at h
    obtain ⟨rfl, rfl, rfl⟩ := h
    obtain ⟨h1, h2, h3, h4, h5, h6, h7, h8, h9⟩ := processErrorCore_spec hpec
    refine ⟨h4, h1, h2, h7, h8, h9, h5, fun _ => ⟨h3, h6⟩, ?_⟩
    intro v hv
    exact Option.noConfusion hv
  next ev1 c1 e1 hpec =>
    rcases hb : bail c1 with ⟨ev2, c2, v2⟩
    rw [hb] at h
    simp only [Prod.mk.injEq] at h
    obtain ⟨rfl, rfl, rfl⟩ := h
    obtain ⟨h1, h2, h3, h4, h5, h6, h7, h8, h9⟩ := processErrorCore_spec hpec
    obtain ⟨b1, b2, b3, b4, b5, b6, b7, b8, b9⟩ := bail_spec hb
    obtain ⟨hsome, _, _⟩ := processErrorCore_some hpec
    refine ⟨?_, ?_, ?_, h7.symm ▸ b5, h8.symm ▸ b6, h9.symm ▸ b7, ?_, ?_, ?_⟩
    · rw [regIds_append, h4, b2]
      rfl
    · rw [trackErr_append, ← h1]
      exact b3
    · exact userWritesOK_append h2 (h1 ▸ b4)
    · intro e he
      rcases List.mem_append.mp he with he | he
      · exact h5 e he
      · exact b8 e he
    · intro hp
      exact Option.noConfusion hp
    · intro v hv
      obtain rfl := Option.some.inj hv
      refine ⟨?_, ?_, ?_⟩
      · rw [cleanIds_append, h3]
        rw [h6] at b1
        exact b1
      · obtain ⟨e, he⟩ := Option.ne_none_iff_exists'.mp hsome
        rw [b3, he]
        exact trackErr_ne_none ev2
      · rcases b9 with ⟨hb1, hb2⟩ | hb1
        · exact Or.inl ⟨hb1, hb2⟩
        · exact Or.inr ⟨ev1, c1, ev2, hb1, h6, hsome, rfl⟩

/-- `processErrorSentinel` invariant (the spec-modelled sentinel pipeline):
same shape as `processError_spec`, with the extra non-aborting outcome when
the processed error equals the sentinel. -/
theorem processErrorSentinel_spec {c : Core} {err sentinel : Err} {hs : List Handler}
    {ev : List Event} {c' : Core} {b : Bool} {p : Option PanicVal}
    (h : processErrorSentinel c err sentinel hs = (ev, c', b, p)) :
    regIds ev = [] ∧
    c'.err = trackErr c.err ev ∧ userWritesOK c.err ev ∧
    c'.defaultHandlers = c.defaultHandlers ∧ c'.inPanic = c.inPanic ∧
    c'.context = c.context ∧
    (∀ e, Event.errWrite true e ∉ ev) ∧
    (p = none → cleanIds ev = [] ∧ c'.deferred = c.deferred) ∧
    (∀ v, p = some v →
      cleanIds ev ++ entryIds c'.deferred = entryIds c.deferred ∧
      c'.err ≠ none ∧
      (v = .err .ourPanic ∧ c'.deferred = [] ∨
        ∃ ev1 c1 evd, doDefers c1 = (evd, c', some v) ∧
          c1.deferred = c.deferred ∧ c1.err ≠ none ∧ ev = ev1 ++ evd)) := by
  unfold processErrorSentinel at h
  split at h
  next ev1 hsc =>
    simp only [Prod.mk.injEq] at h
    obtain ⟨rfl, rfl, rfl, rfl⟩ := h
    obtain ⟨hw, hc, hr⟩ := runSiteChain_no_writes hsc
    refine ⟨hr, (trackErr_no_writes hw _).symm, userWritesOK_no_writes hw _, rfl, rfl, rfl,
      runSiteChain_no_fault hsc, fun _ => ⟨hc, rfl⟩, ?_⟩
    intro v hv
    exact Option.noConfusion hv
  next ev1 err' hsc =>
    obtain ⟨hw, hc, hr⟩ := runSiteChain_no_writes hsc
    have hnf := runSiteChain_no_fault hsc
    split at h
    next heq =>
      simp only [Prod.mk.injEq] at h
      obtain ⟨rfl, rfl, rfl, rfl⟩ := h
      refine ⟨hr, (trackErr_no_writes hw _).symm, userWritesOK_no_writes hw _, rfl, rfl, rfl,
        hnf, fun _ => ⟨hc, rfl⟩, ?_⟩
      intro v hv
      exact Option.noConfusion hv
    next heq =>
      by_cases hce : c.err = none
      · rw [if_pos (by exact hce)] at h
        rcases hb : bail { c with err := some err' } with ⟨ev2, c2, v2⟩
        rw [hb] at h
        simp only [Prod.mk.injEq] at h
        obtain ⟨rfl, rfl, rfl, rfl⟩ := h
        obtain ⟨b1, b2, b3, b4, b5, b6, b7, b8, b9⟩ := bail_spec hb
        refine ⟨?_, ?_, ?_, b5, b6, b7, ?_, ?_, ?_⟩
        · rw [regIds_append, regIds_append, hr, b2,
            show regIds [Event.errWrite false err'] = [] from rfl]
          rfl
        · rw [trackErr_append, trackErr_append, trackErr_no_writes hw, hce]
          exact b3
        · refine userWritesOK_append (userWritesOK_append (userWritesOK_no_writes hw _) ?_) ?_
          · rw [trackErr_no_writes hw, hce]
            exact ⟨rfl, trivial⟩
          · rw [trackErr_append, trackErr_no_writes hw, hce]
            exact b4
        · intro e he
          rcases List.mem_append.mp he with he | he
          · rcases List.mem_append.mp he with he | he
            · exact hnf e he
            · simp at he
          · exact b8 e he
        · intro hp
          exact Option.noConfusion hp
        · intro v hv
          obtain rfl := Option.some.inj hv
          refine ⟨?_, ?_, ?_⟩
          · rw [cleanIds_append, cleanIds_append, hc,
              show cleanIds [Event.errWrite false err'] = [] from rfl]
            simpa using b1
          · rw [b3]
            exact trackErr_ne_none ev2
          · rcases b9 with ⟨hb1, hb2⟩ | hb1
            · exact Or.inl ⟨hb1, hb2⟩
            · exact Or.inr ⟨ev1 ++ [Event.errWrite false err'], _, ev2, hb1, rfl, by simp, rfl⟩
      · rw [if_neg (by exact hce)] at h
        rcases hb : bail c with ⟨ev2, c2, v2⟩
        rw [hb] at h
        simp only [Prod.mk.injEq] at h
        obtain ⟨rfl, rfl, rfl, rfl⟩ := h
        obtain ⟨b1, b2, b3, b4, b5, b6, b7, b8, b9⟩ := bail_spec hb
        refine ⟨?_, ?_, ?_, b5, b6, b7, ?_, ?_, ?_⟩
        · rw [regIds_append, hr, b2]
          rfl
        · rw [trackErr_append, trackErr_no_writes hw]
          exact b3
        · exact userWritesOK_append (userWritesOK_no_writes hw _)
            (by rw [trackErr_no_writes hw]; exact b4)
        · intro e he
          rcases List.mem_append.mp he with he | he
          · exact hnf e he
          · exact b8 e he
        · intro hp
          exact Option.noConfusion hp
        · intro v hv
          obtain rfl := Option.some.inj hv
          refine ⟨?_, ?_, ?_⟩
          · rw [cleanIds_append, hc]
            exact b1
          · obtain ⟨e, he⟩ := Option.ne_none_iff_exists'.mp hce
            rw [b3, he]
            exact trackErr_ne_none ev2
          · rcases b9 with ⟨hb1, hb2⟩ | hb1
            · exact Or.inl ⟨hb1, hb2⟩
            · exact Or.inr ⟨ev1, c, ev2, hb1, rfl, hce, rfl⟩

/-! ## Callback-step lemmas -/

theorem entryIds_append (a b : List DeferEntry) :
    entryIds (a ++ b) = entryIds a ++ entryIds b := by
  simp [entryIds, List.filterMap_append]

theorem entryIds_markers (hs : List Handler) :
    entryIds (hs.map DeferEntry.handler) = [] := by
  induction hs with
  | nil => rfl
  | cons h t ih => simp [entryIds]

/-- Master invariant of `isSentinelStep`, in the shape of `stepCmd_spec`. -/
theorem isSentinelStep_spec {c : Core} {s : Err} {oerr : Option Err} {hs : List Handler}
    {ev : List Event} {c' : Core} {p : Option PanicVal}
    (h : isSentinelStep c s oerr hs = (ev, c', p)) :
    c'.err = trackErr c.err ev ∧ userWritesOK c.err ev ∧
    c'.defaultHandlers = c.defaultHandlers ∧ c'.inPanic = c.inPanic ∧
    c'.context = c.context ∧
    (∀ e, Event.errWrite true e ∉ ev) ∧
    (p = none → cleanIds ev = [] ∧
      entryIds c'.deferred = (regIds ev).reverse ++ entryIds c.deferred) ∧
    (∀ v, p = some v → regIds ev = [] ∧
      cleanIds ev ++ entryIds c'.deferred = entryIds c.deferred) := by
  unfold isSentinelStep at h
  split at h
  next =>
    simp only [Prod.mk.injEq] at h
    obtain ⟨rfl, rfl, rfl⟩ := h
    refine ⟨rfl, trivial, rfl, rfl, rfl, by simp, fun _ => ⟨rfl, by simp [regIds]⟩, ?_⟩
    intro v hv
    exact Option.noConfusion hv
  next e =>
    split at h
    next he =>
      simp only [Prod.mk.injEq] at h
      obtain ⟨rfl, rfl, rfl⟩ := h
      refine ⟨rfl, trivial, rfl, rfl, rfl, by simp, fun _ => ⟨rfl, by simp [regIds]⟩, ?_⟩
      intro v hv
      exact Option.noConfusion hv
    next he =>
      split at h
      next ev0 c0 b hps =>
        simp only [Prod.mk.injEq] at h
        obtain ⟨rfl, rfl, rfl⟩ := h
        obtain ⟨s1, s2, s3, s4, s5, s6, s7, s8, s9⟩ := processErrorSentinel_spec hps
        obtain ⟨sc, sd⟩ := s8 rfl
        refine ⟨?_, ?_, s4, s5, s6, ?_, ?_, ?_⟩
        · rw [trackErr_append]
          exact s2
        · exact userWritesOK_append s3 (userWritesOK_no_writes
            (show allWrites [Event.sentinelResult b] = [] from rfl) _)
        · intro e' he'
          rcases List.mem_append.mp he' with he' | he'
          · exact s7 e' he'
          · simp at he'
        · intro _
          refine ⟨?_, ?_⟩
          · rw [cleanIds_append, sc]
            rfl
          · rw [regIds_append, s1, sd]
            simp [regIds]
        · intro v hv
          exact Option.noConfusion hv
      next ev0 c0 b v hps =>
        simp only [Prod.mk.injEq] at h
        obtain ⟨rfl, rfl, rfl⟩ := h
        obtain ⟨s1, s2, s3, s4, s5, s6, s7, s8, s9⟩ := processErrorSentinel_spec hps
        refine ⟨s2, s3, s4, s5, s6, s7, ?_, ?_⟩
        · intro hp
          exact Option.noConfusion hp
        · intro v' hv
          have hvv : v' = v := (Option.some.inj hv).symm
          subst hvv
          exact ⟨s1, (s9 v' rfl).1⟩

/-- Master invariant of a single callback step: the pending slot replays the
trace under the write discipline, configuration fields are untouched, no
fault-write happens, a non-unwinding step drains nothing and accounts for
its registrations, and an unwinding step registers nothing and accounts for
the pre-step stack. -/
theorem stepCmd_spec {cmd : Cmd} {c : Core} {ev : List Event} {c' : Core} {p : Option PanicVal}
    (h : stepCmd cmd c = (ev, c', p)) :
    c'.err = trackErr c.err ev ∧ userWritesOK c.err ev ∧
    c'.defaultHandlers = c.defaultHandlers ∧ c'.inPanic = c.inPanic ∧
    c'.context = c.context ∧
    (∀ e, Event.errWrite true e ∉ ev) ∧
    (p = none → cleanIds ev = [] ∧
      entryIds c'.deferred = (regIds ev).reverse ++ entryIds c.deferred) ∧
    (∀ v, p = some v → regIds ev = [] ∧
      cleanIds ev ++ entryIds c'.deferred = entryIds c.deferred) := by
  match cmd with
  | .must none hs =>
    simp only [stepCmd, Prod.mk.injEq] at h
    obtain ⟨rfl, rfl, rfl⟩ := h
    refine ⟨rfl, trivial, rfl, rfl, rfl, by simp, fun _ => ⟨rfl, by simp [regIds]⟩, ?_⟩
    intro v hv
    exact Option.noConfusion hv
  | .must (some err) hs =>
    simp only [stepCmd] at h
    obtain ⟨h1, h2, h3, h4, h5, h6, h7, h8, h9⟩ := processError_spec h
    refine ⟨h2, h3, h4, h5, h6, h7, ?_, ?_⟩
    · intro hp
      obtain ⟨hc1, hc2⟩ := h8 hp
      exact ⟨hc1, by simp [h1, hc2]⟩
    · intro v hv
      exact ⟨h1, (h9 v hv).1⟩
  | .deferCmd .nilArg hs =>
    simp only [stepCmd, Prod.mk.injEq] at h
    obtain ⟨rfl, rfl, rfl⟩ := h
    refine ⟨rfl, trivial, rfl, rfl, rfl, by simp, fun _ => ⟨rfl, by simp [regIds]⟩, ?_⟩
    intro v hv
    exact Option.noConfusion hv
  | .deferCmd (.supported a) hs =>
    simp only [stepCmd, Prod.mk.injEq] at h
    obtain ⟨rfl, rfl, rfl⟩ := h
    refine ⟨rfl, trivial, rfl, rfl, rfl, by simp, fun _ => ⟨rfl, ?_⟩, ?_⟩
    · show entryIds ((.entry a :: hs.map .handler) ++ c.deferred) = _
      rw [entryIds_append]
      simp [regIds, entryIds_entry, entryIds_markers, entryIds]
    · intro v hv
      exact Option.noConfusion hv
  | .deferCmd (.unsupported ty) hs =>
    simp only [stepCmd, Prod.mk.injEq] at h
    obtain ⟨rfl, rfl, rfl⟩ := h
    refine ⟨rfl, trivial, rfl, rfl, rfl, by simp, ?_, ?_⟩
    · intro hp
      exact Option.noConfusion hp
    · intro v hv
      refine ⟨rfl, ?_⟩
      show cleanIds [] ++ entryIds (hs.map .handler ++ c.deferred) = entryIds c.deferred
      rw [entryIds_append, entryIds_markers]
      rfl
  | .deferFuncCmd none hs =>
    simp only [stepCmd, Prod.mk.injEq] at h
    obtain ⟨rfl, rfl, rfl⟩ := h
    refine ⟨rfl, trivial, rfl, rfl, rfl, by simp, ?_, ?_⟩
    · intro hp
      exact Option.noConfusion hp
    · intro v hv
      exact ⟨rfl, rfl⟩
  | .deferFuncCmd (some a) hs =>
    simp only [stepCmd, Prod.mk.injEq] at h
    obtain ⟨rfl, rfl, rfl⟩ := h
    refine ⟨rfl, trivial, rfl, rfl, rfl, by simp, fun _ => ⟨rfl, ?_⟩, ?_⟩
    · show entryIds ((.entry a :: hs.map .handler) ++ c.deferred) = _
      rw [entryIds_append]
      simp [regIds, entryIds_entry, entryIds_markers, entryIds]
    · intro v hv
      exact Option.noConfusion hv
  | .panicCmd v =>
    simp only [stepCmd, Prod.mk.injEq] at h
    obtain ⟨rfl, rfl, rfl⟩ := h
    refine ⟨rfl, trivial, rfl, rfl, rfl, by simp, ?_, ?_⟩
    · intro hp
      exact Option.noConfusion hp
    · intro v' hv
      exact ⟨rfl, rfl⟩
  | .isSentinelCmd s oerr hs =>
    simp only [stepCmd] at h
    exact isSentinelStep_spec h

/-- Master invariant of the callback run: the pending slot replays the
trace under the write discipline, configuration is untouched, no fault
writes happen, the cleanups invoked so far plus the pending stack account
exactly for the registrations (in reverse), and nothing has been drained
unless the body is unwinding. -/
theorem runBody_spec (cmds : List Cmd) :
    ∀ (c : Core) {ev : List Event} {c' : Core} {p : Option PanicVal},
    runBody cmds c = (ev, c', p) →
    c'.err = trackErr c.err ev ∧ userWritesOK c.err ev ∧
    c'.defaultHandlers = c.defaultHandlers ∧ c'.inPanic = c.inPanic ∧
    c'.context = c.context ∧
    (∀ e, Event.errWrite true e ∉ ev) ∧
    cleanIds ev ++ entryIds c'.deferred = (regIds ev).reverse ++ entryIds c.deferred ∧
    (p = none → cleanIds ev = []) := by
  induction cmds with
  | nil =>
    intro c ev c' p h
    simp only [runBody, Prod.mk.injEq] at h
    obtain ⟨rfl, rfl, rfl⟩ := h
    exact ⟨rfl, trivial, rfl, rfl, rfl, by simp, by simp [cleanIds, regIds], fun _ => rfl⟩
  | cons cmd rest ih =>
    intro c ev c' p h
    simp only [runBody] at h
    rcases hstep : stepCmd cmd c with ⟨ev1, c1, p1⟩
    rw [hstep] at h
    obtain ⟨t1, t2, t3, t4, t5, t6, t7, t8⟩ := stepCmd_spec hstep
    match p1 with
    | none =>
      rcases hrest : runBody rest c1 with ⟨ev2, c2, p2⟩
      simp only [hrest, Prod.mk.injEq] at h
      obtain ⟨rfl, rfl, rfl⟩ := h
      obtain ⟨r1, r2, r3, r4, r5, r6, r7, r8⟩ := ih c1 hrest
      obtain ⟨tc, te⟩ := t7 rfl
      refine ⟨?_, ?_, r3.trans t3, r4.trans t4, r5.trans t5, ?_, ?_, ?_⟩
      · rw [trackErr_append, ← t1]
        exact r1
      · exact userWritesOK_append t2 (t1 ▸ r2)
      · intro e he
        rcases List.mem_append.mp he with he | he
        · exact t6 e he
        · exact r6 e he
      · rw [cleanIds_append, tc, regIds_append, List.nil_append, List.reverse_append]
        rw [r7, te]
        simp [List.append_assoc]
      · intro hp
        rw [cleanIds_append, tc, r8 hp]
        rfl
    | some v =>
      simp only [Prod.mk.injEq] at h
      obtain ⟨rfl, rfl, rfl⟩ := h
      obtain ⟨tr, ta⟩ := t8 v rfl
      refine ⟨t1, t2, t3, t4, t5, t6, ?_, ?_⟩
      · rw [tr]
        simpa using ta
      · intro hp
        exact Option.noConfusion hp


/-! ## Recovery lemmas -/

/-- Converting any panic value other than the abort signal never produces
the abort signal's error value. -/
theorem panicToError_ne_ourPanic {v : PanicVal} (h : v ≠ .err .ourPanic) :
    panicToError v ≠ .ourPanic := by
  match v with
  | .err e =>
    intro he
    exact h (by rw [panicToError] at he; rw [he])
  | .other s =>
    intro he
    exact Err.noConfusion he

/-- Master invariant of `doRecover`: any recovery fully drains the stack
(accounting for every pending entry), registers nothing, obeys the write
discipline, preserves the configuration, never fault-writes the abort
signal's error value, and — when it absorbs the panic instead of
re-raising — returns the pending error through the caller's `err` slot. -/
theorem doRecoverGo_spec (fuel : ℕ) :
    ∀ (c : Core) (slot : Option Err) (r : Option PanicVal) {ev : List Event} {c' : Core}
      {slot' : Option Err} {p' : Option PanicVal},
    doRecoverGo fuel c slot r = (ev, c', slot', p') →
    c.deferred.length ≤ fuel →
    cleanIds ev ++ entryIds c'.deferred = entryIds c.deferred ∧
    regIds ev = [] ∧
    (r ≠ none → c'.deferred = []) ∧
    c'.err = trackErr c.err ev ∧ userWritesOK c.err ev ∧
    c'.defaultHandlers = c.defaultHandlers ∧ c'.context = c.context ∧
    (∀ e, Event.errWrite true e ∈ ev → e ≠ .ourPanic) ∧
    (p' = none → slot' = c'.err ∨ (r = none ∧ slot' = slot)) ∧
    (r = none → ev = [] ∧ c' = c ∧ slot' = slot ∧ p' = none) := by
  induction fuel with
  | zero =>
    intro c slot r ev c' slot' p' h hlen
    have hdef : c.deferred = [] := List.length_eq_zero.mp (Nat.le_zero.mp hlen)
    match r with
    | none =>
      rw [show doRecoverGo 0 c slot none = ([], c, slot, none) from rfl] at h
      simp only [Prod.mk.injEq] at h
      obtain ⟨rfl, rfl, rfl, rfl⟩ := h
      refine ⟨by simp [cleanIds], rfl, fun hr => absurd rfl hr, rfl, trivial, rfl, rfl,
        by simp, fun _ => Or.inr ⟨rfl, rfl⟩, fun _ => ⟨rfl, rfl, rfl, rfl⟩⟩
    | some v =>
      rw [show doRecoverGo 0 c slot (some v) =
        (if v = PanicVal.err .ourPanic then ([], c, c.err, none)
         else ([Event.errWrite true (panicToError v)],
          { c with inPanic := true, err := some (panicToError v) }, slot, some v))
        from rfl] at h
      split at h
      next hv =>
        simp only [Prod.mk.injEq] at h
        obtain ⟨rfl, rfl, rfl, rfl⟩ := h
        refine ⟨by simp [cleanIds], rfl, fun _ => hdef, rfl, trivial, rfl, rfl,
          by simp, fun _ => Or.inl rfl, ?_⟩
        intro hr
        exact Option.noConfusion hr
      next hv =>
        simp only [Prod.mk.injEq] at h
        obtain ⟨rfl, rfl, rfl, rfl⟩ := h
        refine ⟨by simp [cleanIds], rfl, fun _ => hdef, rfl, trivial, rfl, rfl, ?_, ?_, ?_⟩
        · intro e he
          simp at he
          rw [he]
          exact panicToError_ne_ourPanic hv
        · intro hp
          exact Option.noConfusion hp
        · intro hr
          exact Option.noConfusion hr
  | succ fuel ih =>
    intro c slot r ev c' slot' p' h hlen
    match r with
    | none =>
      rw [show doRecoverGo (fuel + 1) c slot none = ([], c, slot, none) from rfl] at h
      simp only [Prod.mk.injEq] at h
      obtain ⟨rfl, rfl, rfl, rfl⟩ := h
      refine ⟨by simp [cleanIds], rfl, fun hr => absurd rfl hr, rfl, trivial, rfl, rfl,
        by simp, fun _ => Or.inr ⟨rfl, rfl⟩, fun _ => ⟨rfl, rfl, rfl, rfl⟩⟩
    | some v =>
      rw [show doRecoverGo (fuel + 1) c slot (some v) =
        (if v = PanicVal.err .ourPanic then
          match c.deferred with
          | [] => ([], c, c.err, none)
          | _ :: _ =>
            match doDefers c with
            | (ev1, c1, p1) =>
              match doRecoverGo fuel c1 slot p1 with
              | (ev2, c2, _, none) => (ev1 ++ ev2, c2, c2.err, none)
              | (ev2, c2, slot2, some v2) => (ev1 ++ ev2, c2, slot2, some v2)
        else
          match ({ c with inPanic := true, err := some (panicToError v) } : Core).deferred with
          | [] => ([Event.errWrite true (panicToError v)],
              { c with inPanic := true, err := some (panicToError v) }, slot, some v)
          | _ :: _ =>
            match doDefers { c with inPanic := true, err := some (panicToError v) } with
            | (ev1, c1, p1) =>
              match doRecoverGo fuel c1 slot p1 with
              | (ev2, c2, slot2, none) =>
                (Event.errWrite true (panicToError v) :: ev1 ++ ev2, c2, slot2, some v)
              | (ev2, c2, slot2, some v2) =>
                (Event.errWrite true (panicToError v) :: ev1 ++ ev2, c2, slot2, some v2))
        from rfl] at h
      split at h
      next hv =>
        split at h
        next heq =>
          simp only [Prod.mk.injEq] at h
          obtain ⟨rfl, rfl, rfl, rfl⟩ := h
          refine ⟨by simp [cleanIds, heq], rfl, fun _ => heq, rfl, trivial, rfl, rfl,
            by simp, fun _ => Or.inl rfl, ?_⟩
          intro hr
          exact Option.noConfusion hr
        next d l heq =>
          rcases hdd : doDefers c with ⟨ev1, c1, p1⟩
          simp only [hdd] at h
          rcases hrec : doRecoverGo fuel c1 slot p1 with ⟨ev2, c2, slot2, p2⟩
          obtain ⟨dd1, dd2, dd3, dd4, dd5, dd6, dd7, dd8, dd9, dd10⟩ := doDefers_spec hdd
          have hlen' : c1.deferred.length ≤ fuel := by
            match p1 with
            | none =>
              rw [dd3 rfl]
              simp
            | some v1 =>
              have hlt := dd10 v1 rfl
              omega
          obtain ⟨i1, i2, i3, i4, i5, i6, i7, i8, i9, i10⟩ := ih c1 slot p1 hrec hlen'
          have hdef2 : c2.deferred = [] := by
            match p1 with
            | none =>
              obtain ⟨_, hc2, _, _⟩ := i10 rfl
              rw [hc2]
              exact dd3 rfl
            | some v1 => exact i3 (by simp)
          have hacct : cleanIds (ev1 ++ ev2) ++ entryIds c2.deferred = entryIds c.deferred := by
            rw [cleanIds_append, hdef2]
            rw [hdef2, show entryIds ([] : List DeferEntry) = [] from rfl,
              List.append_nil] at i1
            rw [List.append_assoc, show entryIds ([] : List DeferEntry) = [] from rfl,
              List.append_nil, i1]
            exact dd1
          match p2 with
          | none =>
            simp only [hrec, Prod.mk.injEq] at h
            obtain ⟨rfl, rfl, rfl, rfl⟩ := h
            refine ⟨hacct, ?_, fun _ => hdef2, ?_, ?_, i6.trans dd6, i7.trans dd8, ?_,
              fun _ => Or.inl rfl, ?_⟩
            · rw [regIds_append, dd2, i2]
              rfl
            · rw [trackErr_append, ← dd4]
              exact i4
            · exact userWritesOK_append dd5 (dd4 ▸ i5)
            · intro e he
              rcases List.mem_append.mp he with he | he
              · exact absurd he (dd9 e)
              · exact i8 e he
            · intro hr
              exact Option.noConfusion hr
          | some v2 =>
            simp only [hrec, Prod.mk.injEq] at h
            obtain ⟨rfl, rfl, rfl, rfl⟩ := h
            refine ⟨hacct, ?_, fun _ => hdef2, ?_, ?_, i6.trans dd6, i7.trans dd8, ?_, ?_, ?_⟩
            · rw [regIds_append, dd2, i2]
              rfl
            · rw [trackErr_append, ← dd4]
              exact i4
            · exact userWritesOK_append dd5 (dd4 ▸ i5)
            · intro e he
              rcases List.mem_append.mp he with he | he
              · exact absurd he (dd9 e)
              · exact i8 e he
            · intro hp
              exact Option.noConfusion hp
            · intro hr
              exact Option.noConfusion hr
      next hv =>
        split at h
        next heq =>
          simp only [Prod.mk.injEq] at h
          obtain ⟨rfl, rfl, rfl, rfl⟩ := h
          refine ⟨by simp [cleanIds, heq], rfl, fun _ => heq, rfl, trivial,
            rfl, rfl, ?_, ?_, ?_⟩
          · intro e he
            simp at he
            rw [he]
            exact panicToError_ne_ourPanic hv
          · intro hp
            exact Option.noConfusion hp
          · intro hr
            exact Option.noConfusion hr
        next d l heq =>
          rcases hdd : doDefers ({ c with inPanic := true, err := some (panicToError v) })
            with ⟨ev1, c1, p1⟩
          simp only [hdd] at h
          rcases hrec : doRecoverGo fuel c1 slot p1 with ⟨ev2, c2, slot2, p2⟩
          obtain ⟨dd1, dd2, dd3, dd4, dd5, dd6, dd7, dd8, dd9, dd10⟩ := doDefers_spec hdd
          have hlen' : c1.deferred.length ≤ fuel := by
            match p1 with
            | none =>
              rw [dd3 rfl]
              simp
            | some v1 =>
              have hlt : c1.deferred.length < c.deferred.length := dd10 v1 rfl
              omega
          obtain ⟨i1, i2, i3, i4, i5, i6, i7, i8, i9, i10⟩ := ih c1 slot p1 hrec hlen'
          have hdef2 : c2.deferred = [] := by
            match p1 with
            | none =>
              obtain ⟨_, hc2, _, _⟩ := i10 rfl
              rw [hc2]
              exact dd3 rfl
            | some v1 => exact i3 (by simp)
          have hacct :
              cleanIds (Event.errWrite true (panicToError v) :: ev1 ++ ev2) ++
                entryIds c2.deferred = entryIds c.deferred := by
            rw [show cleanIds (Event.errWrite true (panicToError v) :: ev1 ++ ev2) =
              cleanIds (ev1 ++ ev2) from rfl]
            rw [cleanIds_append, hdef2]
            rw [hdef2, show entryIds ([] : List DeferEntry) = [] from rfl,
              List.append_nil] at i1
            rw [List.append_assoc, show entryIds ([] : List DeferEntry) = [] from rfl,
              List.append_nil, i1]
            exact dd1
          have htrack : c2.err =
              trackErr c.err (Event.errWrite true (panicToError v) :: ev1 ++ ev2) := by
            rw [show trackErr c.err (Event.errWrite true (panicToError v) :: ev1 ++ ev2) =
              trackErr (some (panicToError v)) (ev1 ++ ev2) from rfl]
            rw [trackErr_append, ← dd4]
            exact i4
          have huw : userWritesOK c.err (Event.errWrite true (panicToError v) :: ev1 ++ ev2) := by
            show userWritesOK (some (panicToError v)) (ev1 ++ ev2)
            exact userWritesOK_append dd5 (dd4 ▸ i5)
          have hnf : ∀ e, Event.errWrite true e ∈
              (Event.errWrite true (panicToError v) :: ev1 ++ ev2) → e ≠ .ourPanic := by
            intro e he
            rcases List.mem_cons.mp he with he | he
            · obtain ⟨_, he2⟩ := Event.errWrite.inj he
              rw [he2]
              exact panicToError_ne_ourPanic hv
            · rcases List.mem_append.mp he with he | he
              · exact absurd he (dd9 e)
              · exact i8 e he
          have hreg : regIds (Event.errWrite true (panicToError v) :: ev1 ++ ev2) = [] := by
            rw [show regIds (Event.errWrite true (panicToError v) :: ev1 ++ ev2) =
              regIds (ev1 ++ ev2) from rfl]
            rw [regIds_append, dd2, i2]
            rfl
          match p2 with
          | none =>
            simp only [hrec, Prod.mk.injEq] at h
            obtain ⟨rfl, rfl, rfl, rfl⟩ := h
            refine ⟨hacct, hreg, fun _ => hdef2, htrack, huw, i6.trans dd6, i7.trans dd8,
              hnf, ?_, ?_⟩
            · intro hp
              exact Option.noConfusion hp
            · intro hr
              exact Option.noConfusion hr
          | some v2 =>
            simp only [hrec, Prod.mk.injEq] at h
            obtain ⟨rfl, rfl, rfl, rfl⟩ := h
            refine ⟨hacct, hreg, fun _ => hdef2, htrack, huw, i6.trans dd6, i7.trans dd8,
              hnf, ?_, ?_⟩
            · intro hp
              exact Option.noConfusion hp
            · intro hr
              exact Option.noConfusion hr

/-- `doRecover` master invariant (instance of `doRecoverGo_spec` at the
adequate bound). -/
theorem doRecover_spec {c : Core} {slot : Option Err} {r : Option PanicVal}
    {ev : List Event} {c' : Core} {slot' : Option Err} {p' : Option PanicVal}
    (h : doRecover c slot r = (ev, c', slot', p')) :
    cleanIds ev ++ entryIds c'.deferred = entryIds c.deferred ∧
    regIds ev = [] ∧
    (r ≠ none → c'.deferred = []) ∧
    c'.err = trackErr c.err ev ∧ userWritesOK c.err ev ∧
    c'.defaultHandlers = c.defaultHandlers ∧ c'.context = c.context ∧
    (∀ e, Event.errWrite true e ∈ ev → e ≠ .ourPanic) ∧
    (p' = none → slot' = c'.err ∨ (r = none ∧ slot' = slot)) ∧
    (r = none → ev = [] ∧ c' = c ∧ slot' = slot ∧ p' = none) :=
  doRecoverGo_spec c.deferred.length c slot r h le_rfl

/-- Master invariant of a whole block execution: cleanups performed are
exactly the registrations in reverse, the final stack is empty, the pending
slot replays the trace under the write discipline, the configuration is
preserved, the trace never fault-writes the abort signal's error value, and
whatever `Run` returns is the final pending error. -/
theorem runWithContext_spec {defaults : List Handler} {ctx : Option ℕ} {cmds : List Cmd}
    {ev : List Event} {fc : Core} {oc : RunOutcome}
    (h : runWithContext defaults ctx cmds = ⟨ev, fc, oc⟩) :
    cleanIds ev = (regIds ev).reverse ∧ fc.deferred = [] ∧
    fc.err = trackErr none ev ∧ userWritesOK none ev ∧
    fc.defaultHandlers = defaults ∧ fc.context = ctx ∧
    (∀ e, Event.errWrite true e ∈ ev → e ≠ .ourPanic) ∧
    (∀ r, oc = .ret r → r = trackErr none ev) := by
  unfold runWithContext at h
  rcases hbody : runBody cmds (initCore defaults ctx) with ⟨ev1, c1, p1⟩
  obtain ⟨r1, r2, r3, r4, r5, r6, r7, r8⟩ := runBody_spec cmds (initCore defaults ctx) hbody
  have hc1err : c1.err = trackErr none ev1 := r1
  have hc1def : c1.defaultHandlers = defaults := r3
  have hc1ctx : c1.context = ctx := r5
  match p1 with
  | none =>
    simp only [hbody] at h
    rcases hdd : doDefers c1 with ⟨ev2, c2, p2⟩
    obtain ⟨dd1, dd2, dd3, dd4, dd5, dd6, dd7, dd8, dd9, dd10⟩ := doDefers_spec hdd
    have hclean1 : cleanIds ev1 = [] := r8 rfl
    have hacc1 : entryIds c1.deferred = (regIds ev1).reverse := by
      have h7 := r7
      rw [hclean1] at h7
      simpa [initCore, entryIds] using h7
    match p2 with
    | none =>
      simp only [hdd, RunResult.mk.injEq] at h
      obtain ⟨rfl, rfl, rfl⟩ := h
      have hdef2 : c2.deferred = [] := dd3 rfl
      refine ⟨?_, hdef2, ?_, ?_, dd6.trans hc1def, dd8.trans hc1ctx, ?_, ?_⟩
      · rw [cleanIds_append, hclean1, List.nil_append, regIds_append, dd2, List.append_nil]
        rw [hdef2, show entryIds ([] : List DeferEntry) = [] from rfl,
          List.append_nil] at dd1
        rw [dd1, hacc1]
      · rw [trackErr_append, ← hc1err]
        exact dd4
      · exact userWritesOK_append r2 (hc1err ▸ dd5)
      · intro e he
        rcases List.mem_append.mp he with he | he
        · exact absurd he (r6 e)
        · exact absurd he (dd9 e)
      · intro r hr
        obtain rfl := RunOutcome.ret.inj hr
        rw [trackErr_append, ← hc1err]
        exact dd4
    | some v =>
      simp only [hdd] at h
      rcases hrec : doRecover c2 none (some v) with ⟨ev3, c3, slot3, p3⟩
      obtain ⟨g1, g2, g3, g4, g5, g6, g7, g8, g9, g10⟩ := doRecover_spec hrec
      have hdef3 : c3.deferred = [] := g3 (by simp)
      have g1' : cleanIds ev3 = entryIds c2.deferred := by
        rw [hdef3, show entryIds ([] : List DeferEntry) = [] from rfl,
          List.append_nil] at g1
        exact g1
      have hacc : cleanIds (ev1 ++ ev2 ++ ev3) = (regIds (ev1 ++ ev2 ++ ev3)).reverse := by
        rw [cleanIds_append, cleanIds_append, hclean1, List.nil_append,
          regIds_append, regIds_append, dd2, g2, List.append_nil, List.append_nil,
          g1', dd1, hacc1]
      have htr : c3.err = trackErr none (ev1 ++ ev2 ++ ev3) := by
        rw [trackErr_append, trackErr_append, ← hc1err, ← dd4]
        exact g4
      have huw : userWritesOK none (ev1 ++ ev2 ++ ev3) := by
        refine userWritesOK_append (userWritesOK_append r2 (hc1err ▸ dd5)) ?_
        rw [trackErr_append, ← hc1err, ← dd4]
        exact g5
      have hnf : ∀ e, Event.errWrite true e ∈ (ev1 ++ ev2 ++ ev3) → e ≠ .ourPanic := by
        intro e he
        rcases List.mem_append.mp he with he | he
        · rcases List.mem_append.mp he with he | he
          · exact absurd he (r6 e)
          · exact absurd he (dd9 e)
        · exact g8 e he
      match p3 with
      | none =>
        simp only [hrec, RunResult.mk.injEq] at h
        obtain ⟨rfl, rfl, rfl⟩ := h
        refine ⟨hacc, hdef3, htr, huw, g6.trans (dd6.trans hc1def),
          g7.trans (dd8.trans hc1ctx), hnf, ?_⟩
        intro r hr
        obtain rfl := RunOutcome.ret.inj hr
        rcases g9 rfl with hg | ⟨hg, _⟩
        · rw [hg]
          exact htr
        · exact absurd hg (by simp)
      | some v' =>
        simp only [hrec, RunResult.mk.injEq] at h
        obtain ⟨rfl, rfl, rfl⟩ := h
        refine ⟨hacc, hdef3, htr, huw, g6.trans (dd6.trans hc1def),
          g7.trans (dd8.trans hc1ctx), hnf, ?_⟩
        intro r hr
        exact absurd hr (by simp)
  | some v =>
    simp only [hbody] at h
    rcases hrec : doRecover c1 none (some v) with ⟨ev3, c3, slot3, p3⟩
    obtain ⟨g1, g2, g3, g4, g5, g6, g7, g8, g9, g10⟩ := doRecover_spec hrec
    have hdef3 : c3.deferred = [] := g3 (by simp)
    have g1' : cleanIds ev3 = entryIds c1.deferred := by
      rw [hdef3, show entryIds ([] : List DeferEntry) = [] from rfl,
        List.append_nil] at g1
      exact g1
    have hacc1 : cleanIds ev1 ++ entryIds c1.deferred = (regIds ev1).reverse := by
      have h7 := r7
      simpa [initCore, entryIds] using h7
    have hacc : cleanIds (ev1 ++ ev3) = (regIds (ev1 ++ ev3)).reverse := by
      rw [cleanIds_append, regIds_append, g2, List.append_nil, g1']
      exact hacc1
    have htr : c3.err = trackErr none (ev1 ++ ev3) := by
      rw [trackErr_append, ← hc1err]
      exact g4
    have huw : userWritesOK none (ev1 ++ ev3) := by
      exact userWritesOK_append r2 (hc1err ▸ g5)
    have hnf : ∀ e, Event.errWrite true e ∈ (ev1 ++ ev3) → e ≠ .ourPanic := by
      intro e he
      rcases List.mem_append.mp he with he | he
      · exact absurd he (r6 e)
      · exact g8 e he
    match p3 with
    | none =>
      simp only [hrec, RunResult.mk.injEq] at h
      obtain ⟨rfl, rfl, rfl⟩ := h
      refine ⟨hacc, hdef3, htr, huw, g6.trans hc1def, g7.trans hc1ctx, hnf, ?_⟩
      intro r hr
      obtain rfl := RunOutcome.ret.inj hr
      rcases g9 rfl with hg | ⟨hg, _⟩
      · rw [hg]
        exact htr
      · exact absurd hg (by simp)
    | some v' =>
      simp only [hrec, RunResult.mk.injEq] at h
      obtain ⟨rfl, rfl, rfl⟩ := h
      refine ⟨hacc, hdef3, htr, huw, g6.trans hc1def, g7.trans hc1ctx, hnf, ?_⟩
      intro r hr
      exact absurd hr (by simp)

/-! ## Claim theorems -/

/-- C2: for every sequence of cleanup registrations made within one block
execution, the cleanup invocations run in exactly reverse registration
order with no registered entry skipped — whatever mixture of normal
completion, `Must` aborts, callback faults and faults raised by cleanup
entries themselves the execution contains, and for `Run` and
`RunWithContext` alike. -/
theorem C2_cleanup_reverse_order (defaults : List Handler) (ctx : Option ℕ)
    (cmds : List Cmd) :
    cleanIds (runWithContext defaults ctx cmds).events =
      (regIds (runWithContext defaults ctx cmds).events).reverse ∧
    cleanIds (runScope defaults cmds).events =
      (regIds (runScope defaults cmds).events).reverse :=
  ⟨(@runWithContext_spec defaults ctx cmds (runWithContext defaults ctx cmds).events
      (runWithContext defaults ctx cmds).finalCore
      (runWithContext defaults ctx cmds).outcome rfl).1,
   (@runWithContext_spec defaults none cmds (runScope defaults cmds).events
      (runScope defaults cmds).finalCore
      (runScope defaults cmds).outcome rfl).1⟩

/-- C1 (amended): at most one checked/cleanup error ever becomes the
recorded pendingError; whenever `Run` returns, it returns the final
recorded pending error, and in executions without uncontrolled-fault
processing that is exactly the first (and only) error that survived its
handler chain.  (Fault processing, by contrast, overwrites the slot — see
the counterexample.) -/
theorem C1_first_error_wins (defaults : List Handler) (ctx : Option ℕ) (cmds : List Cmd) :
    (userWrites (runWithContext defaults ctx cmds).events).length ≤ 1 ∧
    (∀ r, (runWithContext defaults ctx cmds).outcome = .ret r →
      r = trackErr none (runWithContext defaults ctx cmds).events) ∧
    ((∀ e, Event.errWrite true e ∉ (runWithContext defaults ctx cmds).events) →
      ∀ r, (runWithContext defaults ctx cmds).outcome = .ret r →
        r = (userWrites (runWithContext defaults ctx cmds).events).head?) := by
  obtain ⟨m1, m2, m3, m4, m5, m6, m7, m8⟩ :=
    @runWithContext_spec defaults ctx cmds (runWithContext defaults ctx cmds).events
      (runWithContext defaults ctx cmds).finalCore
      (runWithContext defaults ctx cmds).outcome rfl
  refine ⟨userWritesOK_length m4, m8, ?_⟩
  intro hnf r hr
  rw [m8 r hr]
  exact trackErr_head m4 hnf

/-- The block used to refute C1 as stated: a cleanup entry that panics,
registered before a failing check. -/
def c1Program : List Cmd :=
  [.deferCmd (.supported ⟨1, fun _ => .panic' (.other "v")⟩) [],
   .must (some (.user 1)) []]

/-- C1 counterexample: in `c1Program`, the checked error `user 1` survives
its (empty) handler chain and becomes the recorded pendingError, and the
cleanup entry's fault then OVERWRITES the slot with the fault-derived error
during fault processing — two distinct errors successively become the
recorded pendingError, contradicting the claim that no later error raised
by fault processing overwrites it. -/
theorem C1_counterexample :
    allWrites (runScope [] c1Program).events = [.user 1, .paniced "v"] ∧
    Err.user 1 ≠ Err.paniced "v" ∧
    (runScope [] c1Program).finalCore.err = some (.paniced "v") :=
  ⟨by decide, by decide, by decide⟩

/-- C1 witness: a concrete fault-free execution in which `Run` returns
exactly the unique surviving checked error. -/
def c1WitnessProgram : List Cmd := [.must (some (.user 1)) []]

theorem C1_first_error_wins_witness :
    (∀ e, Event.errWrite true e ∉ (runWithContext [] none c1WitnessProgram).events) ∧
    (runWithContext [] none c1WitnessProgram).outcome = .ret (some (.user 1)) ∧
    some (Err.user 1) =
      (userWrites (runWithContext [] none c1WitnessProgram).events).head? := by
  have hev : (runWithContext [] none c1WitnessProgram).events =
      [.errWrite false (.user 1)] := by decide
  refine ⟨?_, by decide, ?_⟩
  · intro e
    rw [hev]
    intro hmem
    simp at hmem
  · exact (C1_first_error_wins [] none c1WitnessProgram).2.2
      (by
        intro e
        rw [hev]
        intro hmem
        simp at hmem)
      (some (.user 1)) (by decide)

/-- C6: a handler chain run stops at the first handler returning nil
(remaining handlers skipped, error cleared), otherwise threads each
handler's non-nil result into the next handler; an empty chain leaves the
error unchanged; and at the `Run` level, `Must(errX, h)` with `h`
transforming the error into a non-nil `e'` makes `Run` return exactly
`e'`. -/
theorem C6_handler_chain (flag : Bool) (c : Core) (err : Err) :
    runChain flag c [] err = ([], some err) ∧
    (∀ (h : Handler) (hs : List Handler), h.run c.view err = none →
      runChain flag c (h :: hs) err = ([Event.handlerRun flag h.id c.err err], none)) ∧
    (∀ (h : Handler) (hs : List Handler) (e' : Err), h.run c.view err = some e' →
      runChain flag c (h :: hs) err =
        (Event.handlerRun flag h.id c.err err :: (runChain flag c hs e').1,
         (runChain flag c hs e').2)) ∧
    (∀ (defaults : List Handler) (ctx : Option ℕ) (eX : Err) (h : Handler) (e' : Err),
      h.run (initCore defaults ctx).view eX = some e' →
      (runWithContext defaults ctx [.must (some eX) [h]]).outcome = .ret (some e')) := by
  refine ⟨rfl, ?_, ?_, ?_⟩
  · intro h hs hrun
    simp [runChain, hrun]
  · intro h hs e' hrun
    simp [runChain, hrun]
  · intro defaults ctx eX h e' hrun
    have hchain : runChain false (initCore defaults ctx) [h] eX =
        ([Event.handlerRun false h.id none eX], some e') := by
      simp only [runChain, hrun]
      rfl
    have hsite : runSiteChain (initCore defaults ctx) eX [h] =
        ([Event.handlerRun false h.id none eX], some e') := by
      rw [runSiteChain_of_ne_nil (by simp)]
      exact hchain
    have hpec : processErrorCore (initCore defaults ctx) eX [h] =
        ([Event.handlerRun false h.id none eX] ++ [Event.errWrite false e'],
         { initCore defaults ctx with err := some e' }, some e') := by
      unfold processErrorCore
      rw [hsite]
      rfl
    have hpe : processError (initCore defaults ctx) eX [h] =
        ([Event.handlerRun false h.id none eX] ++ [Event.errWrite false e'],
         { initCore defaults ctx with err := some e' }, some (.err .ourPanic)) := by
      unfold processError
      rw [hpec]
      rfl
    show (runWithContext defaults ctx [.must (some eX) [h]]).outcome = .ret (some e')
    simp only [runWithContext, runBody, stepCmd, hpe]
    rfl

/-- The increment handler used in the C6 witness. -/
def c6Handler : Handler :=
  ⟨7, fun _ e => match e with | .user n => some (.user (n + 1)) | e => some e⟩

theorem C6_handler_chain_witness :
    c6Handler.run (initCore [] none).view (.user 1) = some (.user 2) ∧
    (runWithContext [] none [.must (some (.user 1)) [c6Handler]]).outcome =
      .ret (some (.user 2)) :=
  ⟨rfl, (C6_handler_chain false (initCore [] none) (.user 1)).2.2.2 [] none (.user 1)
    c6Handler (.user 2) rfl⟩

/-- A handler-invocation event that came from the default chain. -/
def isDefaultHandlerEvent : Event → Bool
  | .handlerRun true _ _ _ => true
  | _ => false

/-- The handler id carried by a handler-invocation event. -/
def eventHid : Event → ℕ
  | .handlerRun _ i _ _ => i
  | _ => 0

/-- The events of `processErrorCore` are its site chain's handler
invocations followed only by a possible pending-slot write. -/
theorem processErrorCore_events_from_chain {c : Core} {err : Err} {hs : List Handler}
    {ev : List Event} {c' : Core} {r : Option Err}
    (h : processErrorCore c err hs = (ev, c', r)) :
    ∃ w, ev = (runSiteChain c err hs).1 ++ w ∧
      ∀ x ∈ w, ∃ e, x = Event.errWrite false e := by
  unfold processErrorCore at h
  split at h
  next ev1 hsc =>
    simp only [Prod.mk.injEq] at h
    obtain ⟨rfl, rfl, rfl⟩ := h
    exact ⟨[], by simp [hsc], by simp⟩
  next ev1 e1 hsc =>
    split at h
    next hce =>
      simp only [Prod.mk.injEq] at h
      obtain ⟨rfl, rfl, rfl⟩ := h
      exact ⟨[Event.errWrite false e1], by simp [hsc], by simp⟩
    next hce =>
      simp only [Prod.mk.injEq] at h
      obtain ⟨rfl, rfl, rfl⟩ := h
      exact ⟨[], by simp [hsc], by simp⟩

/-- The events of `processDeferError` are its marker chain's handler
invocations followed only by a possible pending-slot write. -/
theorem processDeferError_events_from_chain {c : Core} {err : Err}
    {ev : List Event} {r : Option Err}
    (h : processDeferError c err = (ev, r)) :
    ∃ w, ev = (runSiteChain c err (markerHandlers c.deferred)).1 ++ w ∧
      ∀ x ∈ w, ∃ e, x = Event.errWrite false e := by
  unfold processDeferError at h
  split at h
  next ev1 hsc =>
    simp only [Prod.mk.injEq] at h
    obtain ⟨rfl, rfl⟩ := h
    exact ⟨[], by simp [hsc], by simp⟩
  next ev1 e1 hsc =>
    split at h
    next hce =>
      simp only [Prod.mk.injEq] at h
      obtain ⟨rfl, rfl⟩ := h
      exact ⟨[Event.errWrite false e1], by simp [hsc], by simp⟩
    next hce =>
      simp only [Prod.mk.injEq] at h
      obtain ⟨rfl, rfl⟩ := h
      exact ⟨[], by simp [hsc], by simp⟩

/-- Registration shape: the markers seen below a just-popped entry are
exactly the handlers that were attached to it, in listed order. -/
theorem markerHandlers_shape (hs : List Handler) (d : DeferAction) (rest : List DeferEntry) :
    markerHandlers (hs.map .handler ++ DeferEntry.entry d :: rest) = hs := by
  induction hs with
  | nil => rfl
  | cons h t ih =>
    simp only [List.map_cons, List.cons_append, markerHandlers, List.takeWhile_cons,
      DeferEntry.isMarker, List.filterMap_cons] at ih ⊢
    simp [ih]

/-- C7: at every error site, explicitly supplied handlers suppress the
default chain entirely (no default handler is invoked for that site's
chain); with no explicit handlers the site runs exactly the configured
default chain; handler invocations always follow the listed order (first
listed handler first); and a cleanup entry registered with handlers
`h1, ..., hk` has exactly those handlers — `h1` first — applied when its
invocation fails. -/
theorem C7_handler_precedence :
    (∀ (c : Core) (err : Err) (hs : List Handler) (ev : List Event) (c' : Core)
       (r : Option Err), hs ≠ [] → processErrorCore c err hs = (ev, c', r) →
      ∀ x ∈ ev, isDefaultHandlerEvent x = false) ∧
    (∀ (c : Core) (err : Err) (ev : List Event) (r : Option Err),
      markerHandlers c.deferred ≠ [] → processDeferError c err = (ev, r) →
      ∀ x ∈ ev, isDefaultHandlerEvent x = false) ∧
    (∀ (c : Core) (err : Err) (ev : List Event) (c' : Core) (r : Option Err),
      processErrorCore c err [] = (ev, c', r) →
      ∃ w, ev = (runChain true c c.defaultHandlers err).1 ++ w ∧
        ∀ x ∈ w, ∃ e, x = Event.errWrite false e) ∧
    (∀ (flag : Bool) (c : Core) (hs : List Handler) (err : Err),
      ((runChain flag c hs err).1).map eventHid =
        (hs.map Handler.id).take ((runChain flag c hs err).1).length) ∧
    (∀ (c : Core) (d : DeferAction) (hs : List Handler) (rest : List DeferEntry)
       (err : Err) (ev : List Event) (r : Option Err),
      c.deferred = hs.map .handler ++ DeferEntry.entry d :: rest →
      processDeferError c err = (ev, r) → hs ≠ [] →
      ∃ w, ev = (runChain false c hs err).1 ++ w ∧
        ∀ x ∈ w, ∃ e, x = Event.errWrite false e) := by
  refine ⟨?_, ?_, ?_, ?_, ?_⟩
  · intro c err hs ev c' r hne h x hx
    obtain ⟨w, rfl, hw⟩ := processErrorCore_events_from_chain h
    rcases List.mem_append.mp hx with hx | hx
    · rw [runSiteChain_of_ne_nil hne] at hx
      obtain ⟨h', e', _, rfl⟩ := runChain_events x hx
      rfl
    · obtain ⟨e, rfl⟩ := hw x hx
      rfl
  · intro c err ev r hne h x hx
    obtain ⟨w, rfl, hw⟩ := processDeferError_events_from_chain h
    rcases List.mem_append.mp hx with hx | hx
    · rw [runSiteChain_of_ne_nil hne] at hx
      obtain ⟨h', e', _, rfl⟩ := runChain_events x hx
      rfl
    · obtain ⟨e, rfl⟩ := hw x hx
      rfl
  · intro c err ev c' r h
    obtain ⟨w, rfl, hw⟩ := processErrorCore_events_from_chain h
    exact ⟨w, by rw [runSiteChain_nil], hw⟩
  · intro flag c hs err
    exact runChain_order
  · intro c d hs rest err ev r hshape h hne
    obtain ⟨w, rfl, hw⟩ := processDeferError_events_from_chain h
    refine ⟨w, ?_, hw⟩
    rw [hshape, markerHandlers_shape, runSiteChain_of_ne_nil hne]

/-- C7 witness: a concrete cleanup entry with two attached handlers whose
failure applies those handlers in listed order with no default handler
invoked, and a concrete `Must` site with an explicit handler that keeps the
default chain silent. -/
def c7Pass : Handler := ⟨21, fun _ e => some e⟩

def c7Pass2 : Handler := ⟨22, fun _ e => some e⟩

def c7Core : Core :=
  ⟨[⟨99, fun _ _ => none⟩], false,
   [.handler c7Pass, .handler c7Pass2, .entry ⟨3, fun _ => .ok⟩], none, none⟩

theorem C7_handler_precedence_witness :
    markerHandlers c7Core.deferred = [c7Pass, c7Pass2] ∧
    processDeferError c7Core (.user 5) =
      ([.handlerRun false 21 none (.user 5), .handlerRun false 22 none (.user 5),
        .errWrite false (.user 5)], some (.user 5)) ∧
    (∀ x ∈ [Event.handlerRun false 21 none (.user 5),
        Event.handlerRun false 22 none (.user 5), Event.errWrite false (.user 5)],
      isDefaultHandlerEvent x = false) := by
  have hpde : processDeferError c7Core (.user 5) =
      ([.handlerRun false 21 none (.user 5), .handlerRun false 22 none (.user 5),
        .errWrite false (.user 5)], some (.user 5)) := rfl
  refine ⟨rfl, hpde, ?_⟩
  intro x hx
  refine (C7_handler_precedence).2.1 c7Core (.user 5) _ _ ?_ hpde x hx
  rw [show markerHandlers c7Core.deferred = [c7Pass, c7Pass2] from rfl]
  simp

/-- A deferred-stack element whose invocation never panics (handler markers
are never invoked, so they qualify trivially). -/
def EntryNoPanic : DeferEntry → Prop
  | .handler _ => True
  | .entry a => ∀ v p, a.run v ≠ .panic' p

/-- A drain over entries that never panic completes (with an empty final
stack, by `doDefersGo_spec`). -/
theorem doDefersGo_no_panic (l : List DeferEntry) :
    ∀ (c : Core), (∀ d ∈ l, EntryNoPanic d) →
    ∃ ev c', doDefersGo l c = (ev, c', none) := by
  induction l with
  | nil => exact fun c _ => ⟨[], c, rfl⟩
  | cons d rest ih =>
    intro c hnp
    match d with
    | .handler hh =>
      obtain ⟨ev, c', hgo⟩ := ih { c with deferred := rest } (fun d hd => hnp d (by simp [hd]))
      exact ⟨ev, c', by simp only [doDefersGo]; exact hgo⟩
    | .entry a =>
      have hanp : ∀ v p, a.run v ≠ .panic' p := hnp (.entry a) (by simp)
      rcases hrun : a.run (Core.view { c with deferred := rest }) with _ | err | v
      · obtain ⟨ev, c', hgo⟩ := ih { c with deferred := rest }
          (fun d hd => hnp d (by simp [hd]))
        exact ⟨Event.cleanup a.id c.err :: ev, c', by simp only [doDefersGo, hrun, hgo]⟩
      · rcases hpde : processDeferError { c with deferred := rest } err with ⟨ev1, newErr⟩
        obtain ⟨ev, c', hgo⟩ := ih { c with deferred := rest, err := newErr }
          (fun d hd => hnp d (by simp [hd]))
        exact ⟨Event.cleanup a.id c.err :: ev1 ++ ev, c',
          by simp only [doDefersGo, hrun, hpde, hgo]⟩
      · exact absurd hrun (hanp _ v)

/-- A trace with no non-fault writes and no fault writes has no writes. -/
theorem allWrites_eq_nil {ev : List Event} (hu : userWrites ev = [])
    (hf : ∀ e, Event.errWrite true e ∉ ev) : allWrites ev = [] := by
  induction ev with
  | nil => rfl
  | cons x rest ih =>
    match x with
    | .errWrite false e =>
      exact absurd hu (by simp [userWrites])
    | .errWrite true e => exact absurd (List.mem_cons_self _ _) (hf e)
    | .registered _ =>
      have : allWrites rest = [] :=
        ih (by simpa [userWrites] using hu) (fun e he => hf e (List.mem_cons_of_mem _ he))
      simpa [allWrites] using this
    | .cleanup _ _ =>
      have : allWrites rest = [] :=
        ih (by simpa [userWrites] using hu) (fun e he => hf e (List.mem_cons_of_mem _ he))
      simpa [allWrites] using this
    | .handlerRun _ _ _ _ =>
      have : allWrites rest = [] :=
        ih (by simpa [userWrites] using hu) (fun e he => hf e (List.mem_cons_of_mem _ he))
      simpa [allWrites] using this
    | .sentinelResult _ =>
      have : allWrites rest = [] :=
        ih (by simpa [userWrites] using hu) (fun e he => hf e (List.mem_cons_of_mem _ he))
      simpa [allWrites] using this

/-- A fault recovery whose remaining cleanup entries never panic re-raises
the original fault value and leaves the caller's `err` slot untouched. -/
theorem doRecover_fault_no_panic {c : Core} {slot : Option Err} {v : PanicVal}
    (hv : v ≠ .err .ourPanic) (hnp : ∀ d ∈ c.deferred, EntryNoPanic d) :
    (doRecover c slot (some v)).2.2.2 = some v ∧
    (doRecover c slot (some v)).2.2.1 = slot ∧
    (doRecover c slot (some v)).2.1.err = some (panicToError v) := by
  match hd : c.deferred with
  | [] =>
    refine ⟨?_, ?_, ?_⟩
    · show (doRecover c slot (some v)).2.2.2 = some v
      simp only [doRecover, hd, List.length_nil, doRecoverGo, if_neg hv]
    · show (doRecover c slot (some v)).2.2.1 = slot
      simp only [doRecover, hd, List.length_nil, doRecoverGo, if_neg hv]
    · show (doRecover c slot (some v)).2.1.err = some (panicToError v)
      simp only [doRecover, hd, List.length_nil, doRecoverGo, if_neg hv]
  | d0 :: l0 =>
    have hnpW : ∀ d ∈ ({ c with inPanic := true, err := some (panicToError v) } : Core).deferred, EntryNoPanic d := fun d hdm => hnp d hdm
    obtain ⟨ev1, c1, hgo⟩ := doDefersGo_no_panic _ _ hnpW
    have hdd : doDefers { c with inPanic := true, err := some (panicToError v) } = (ev1, c1, none) := hgo
    rw [hd] at hdd
    have hc1err : c1.err = some (panicToError v) := by
      obtain ⟨dd1, dd2, dd3, dd4, dd5, dd6, dd7, dd8, dd9, dd10⟩ :=
        doDefers_spec (hd ▸ hdd)
      have hu : userWrites ev1 = [] := userWritesOK_some dd5
      have hall : allWrites ev1 = [] := allWrites_eq_nil hu dd9
      rw [dd4]
      exact trackErr_no_writes hall _
    refine ⟨?_, ?_, ?_⟩
    · show (doRecover c slot (some v)).2.2.2 = some v
      simp only [doRecover, hd, List.length_cons, doRecoverGo, if_neg hv, hdd]
    · show (doRecover c slot (some v)).2.2.1 = slot
      simp only [doRecover, hd, List.length_cons, doRecoverGo, if_neg hv, hdd]
    · show (doRecover c slot (some v)).2.1.err = some (panicToError v)
      simp only [doRecover, hd, List.length_cons, doRecoverGo, if_neg hv, hdd]
      exact hc1err

/-- A block whose callback unwinds with an uncontrolled fault, and whose
pending cleanup entries never panic, re-raises the fault out of `Run`
after recording the converted fault and draining every pending entry. -/
theorem runWithContext_body_panic {defaults : List Handler} {ctx : Option ℕ}
    {cmds : List Cmd} {ev1 : List Event} {c1 : Core} {v : PanicVal}
    (hbody : runBody cmds (initCore defaults ctx) = (ev1, c1, some v))
    (hv : v ≠ .err .ourPanic)
    (hnp : ∀ d ∈ c1.deferred, EntryNoPanic d) :
    (runWithContext defaults ctx cmds).outcome = .panic' v ∧
    (runWithContext defaults ctx cmds).finalCore.err = some (panicToError v) ∧
    (runWithContext defaults ctx cmds).finalCore.deferred = [] ∧
    cleanIds (runWithContext defaults ctx cmds).events =
      cleanIds ev1 ++ entryIds c1.deferred := by
  rcases hdr : doRecover c1 none (some v) with ⟨ev3, c3, slot3, p3⟩
  have hproj := @doRecover_fault_no_panic c1 none v hv hnp
  rw [hdr] at hproj
  obtain ⟨hp3, hs3, herr3⟩ := hproj
  subst hp3
  obtain ⟨g1, g2, g3, g4, g5, g6, g7, g8, g9, g10⟩ := doRecover_spec hdr
  have hdef3 : c3.deferred = [] := g3 (by simp)
  have hR : runWithContext defaults ctx cmds = ⟨ev1 ++ ev3, c3, .panic' v⟩ := by
    unfold runWithContext
    simp only [hbody, hdr]
  rw [hR]
  refine ⟨rfl, herr3, hdef3, ?_⟩
  show cleanIds (ev1 ++ ev3) = cleanIds ev1 ++ entryIds c1.deferred
  rw [cleanIds_append]
  rw [hdef3, show entryIds ([] : List DeferEntry) = [] from rfl, List.append_nil] at g1
  rw [g1]

/-- C9: invalid registration — `DeferFunc` with a nil function, or `Defer`
with a value of an unsupported type — panics immediately with the
corresponding programming-error value; the panic escapes `Run` as a panic
(never as the block's returned error value), regardless of the configured
defaults, the attached handlers, or the rest of the callback. -/
theorem C9_registration_errors :
    (∀ (c : Core) (hs : List Handler),
      stepCmd (.deferFuncCmd none hs) c = ([], c, some (.err .nilFunc))) ∧
    (∀ (c : Core) (ty : String) (hs : List Handler),
      stepCmd (.deferCmd (.unsupported ty) hs) c =
        ([], { c with deferred := hs.map .handler ++ c.deferred },
          some (.err (.notSupported ty)))) ∧
    (∀ (defaults : List Handler) (ctx : Option ℕ) (hs : List Handler) (rest : List Cmd),
      (runWithContext defaults ctx (.deferFuncCmd none hs :: rest)).outcome =
        .panic' (.err .nilFunc)) ∧
    (∀ (defaults : List Handler) (ctx : Option ℕ) (ty : String) (hs : List Handler)
      (rest : List Cmd),
      (runWithContext defaults ctx (.deferCmd (.unsupported ty) hs :: rest)).outcome =
        .panic' (.err (.notSupported ty))) := by
  refine ⟨fun _ _ => rfl, fun _ _ _ => rfl, ?_, ?_⟩
  · intro defaults ctx hs rest
    have hbody : runBody (.deferFuncCmd none hs :: rest) (initCore defaults ctx) =
        ([], initCore defaults ctx, some (.err .nilFunc)) := rfl
    exact (runWithContext_body_panic hbody (by simp) (by simp [initCore])).1
  · intro defaults ctx ty hs rest
    have hbody : runBody (.deferCmd (.unsupported ty) hs :: rest) (initCore defaults ctx) =
        ([], { initCore defaults ctx with deferred := hs.map .handler ++ [] },
          some (.err (.notSupported ty))) := rfl
    refine (runWithContext_body_panic hbody (by simp) ?_).1
    intro d hd
    simp only [List.append_nil] at hd
    obtain ⟨h, _, rfl⟩ := List.mem_map.mp hd
    trivial

/-- C3: when the callback (or, via an earlier recovery, a cleanup entry)
unwinds with an uncontrolled fault value `v` — any panic value other than
the engine's own abort signal — and the still-pending cleanup entries do
not themselves panic, the engine records the converted fault as the pending
error (wrapping a non-error value's textual form with the fixed
`errd: paniced:` marker), drains every remaining cleanup entry, and then
re-raises the original value `v` out of `Run`, never absorbing it. -/
theorem C3_fault_reraise (defaults : List Handler) (ctx : Option ℕ) (cmds : List Cmd)
    (ev1 : List Event) (c1 : Core) (v : PanicVal)
    (hbody : runBody cmds (initCore defaults ctx) = (ev1, c1, some v))
    (hv : v ≠ .err .ourPanic)
    (hnp : ∀ d ∈ c1.deferred, EntryNoPanic d) :
    (runWithContext defaults ctx cmds).outcome = .panic' v ∧
    (runWithContext defaults ctx cmds).finalCore.err = some (panicToError v) ∧
    (∀ s, v = .other s →
      (runWithContext defaults ctx cmds).finalCore.err = some (.paniced s)) ∧
    (runWithContext defaults ctx cmds).finalCore.deferred = [] ∧
    cleanIds (runWithContext defaults ctx cmds).events =
      cleanIds ev1 ++ entryIds c1.deferred := by
  obtain ⟨h1, h2, h3, h4⟩ := runWithContext_body_panic hbody hv hnp
  refine ⟨h1, h2, ?_, h3, h4⟩
  intro s hs
  subst hs
  exact h2

/-- The block used in the C3 witness: one well-behaved cleanup entry, then
a fault with a non-error value. -/
def c3Program : List Cmd :=
  [.deferCmd (.supported ⟨5, fun _ => .ok⟩) [], .panicCmd (.other "boom")]

/-- The engine state at the moment the C3 witness's fault unwinds. -/
def c3Core1 : Core := ⟨[], false, [.entry ⟨5, fun _ => .ok⟩], none, none⟩

theorem C3_fault_reraise_witness :
    runBody c3Program (initCore [] none) =
      ([.registered 5], c3Core1, some (.other "boom")) ∧
    (PanicVal.other "boom" ≠ .err .ourPanic) ∧
    (runWithContext [] none c3Program).outcome = .panic' (.other "boom") ∧
    (runWithContext [] none c3Program).finalCore.err = some (.paniced "boom") ∧
    (runWithContext [] none c3Program).finalCore.deferred = [] ∧
    cleanIds (runWithContext [] none c3Program).events = [5] := by
  have hnp : ∀ d ∈ c3Core1.deferred, EntryNoPanic d := by
    intro d hd
    simp only [c3Core1, List.mem_singleton] at hd
    subst hd
    intro view p h
    exact DeferResult.noConfusion h
  obtain ⟨h1, h2, h3, h4, h5⟩ :=
    C3_fault_reraise [] none c3Program [.registered 5] c3Core1 (.other "boom")
      rfl (by simp) hnp
  exact ⟨rfl, by simp, h1, h3 "boom" rfl, h4, by rw [h5]; rfl⟩

/-- C5: `Must` with a nil error is a no-op; with an error that survives its
handler processing it stores the processed error as pendingError exactly
when none is stored yet, accounts for every registered cleanup entry in the
bail drain (draining all of them whenever none panics), and unwinds by
panic — so that no callback code after the `Must` call ever executes. -/
theorem C5_must_semantics :
    (∀ (c : Core) (hs : List Handler), stepCmd (.must none hs) c = ([], c, none)) ∧
    (∀ (c : Core) (err e' : Err) (hs : List Handler) (ev : List Event),
      runSiteChain c err hs = (ev, some e') →
      ∃ evd c2 v,
        processError c err hs =
          (ev ++ (if c.err = none then [Event.errWrite false e'] else []) ++ evd,
            c2, some v) ∧
        c2.err = (if c.err = none then some e' else c.err) ∧
        cleanIds evd ++ entryIds c2.deferred = entryIds c.deferred ∧
        ((∀ d ∈ c.deferred, EntryNoPanic d) → v = .err .ourPanic ∧ c2.deferred = [] ∧
          cleanIds evd = entryIds c.deferred)) ∧
    (∀ (cmd : Cmd) (rest : List Cmd) (c : Core) (ev : List Event) (c' : Core)
       (v : PanicVal),
      stepCmd cmd c = (ev, c', some v) → runBody (cmd :: rest) c = (ev, c', some v)) := by
  refine ⟨fun _ _ => rfl, ?_, ?_⟩
  · intro c err e' hs ev hsc
    have hpec : processErrorCore c err hs =
        (ev ++ (if c.err = none then [Event.errWrite false e'] else []),
          if c.err = none then { c with err := some e' } else c, some e') := by
      unfold processErrorCore
      rw [hsc]
      by_cases hce : c.err = none <;> simp [hce]
    have hc1err : (if c.err = none then { c with err := some e' } else c).err =
        (if c.err = none then some e' else c.err) := by
      by_cases hce : c.err = none
      · rw [if_pos hce, if_pos hce]
      · rw [if_neg hce, if_neg hce]
    have hc1some : (if c.err = none then { c with err := some e' } else c).err ≠ none := by
      rw [hc1err]
      by_cases hce : c.err = none
      · rw [if_pos hce]
        simp
      · rw [if_neg hce]
        exact hce
    have hc1def : (if c.err = none then { c with err := some e' } else c).deferred =
        c.deferred := by
      by_cases hce : c.err = none
      · rw [if_pos hce]
      · rw [if_neg hce]
    rcases hb : bail (if c.err = none then { c with err := some e' } else c)
      with ⟨evd, c2, v⟩
    obtain ⟨b1, b2, b3, b4, b5, b6, b7, b8, b9⟩ := bail_spec hb
    refine ⟨evd, c2, v, ?_, ?_, ?_, ?_⟩
    · unfold processError
      simp only [hpec, hb]
    · obtain ⟨e0, he0⟩ := Option.ne_none_iff_exists'.mp hc1some
      have hall : allWrites evd = [] := by
        have b4' : userWritesOK (some e0) evd := by
          rw [← he0]
          exact b4
        exact allWrites_eq_nil (userWritesOK_some b4') b8
      rw [b3, trackErr_no_writes hall, hc1err]
    · rw [hc1def] at b1
      exact b1
    · intro hnp
      obtain ⟨ev0, c0, hgo⟩ := doDefersGo_no_panic
        (if c.err = none then { c with err := some e' } else c).deferred
        (if c.err = none then { c with err := some e' } else c)
        (by rw [hc1def]; exact hnp)
      have hdd : doDefers (if c.err = none then { c with err := some e' } else c) =
          (ev0, c0, none) := hgo
      have hbv : bail (if c.err = none then { c with err := some e' } else c) =
          (ev0, c0, .err .ourPanic) := by
        unfold bail
        rw [hdd]
      rw [hb] at hbv
      obtain ⟨rfl, rfl, rfl⟩ := Prod.mk.injEq .. ▸ hbv
      obtain ⟨d1, d2, d3, d4, d5, d6, d7, d8, d9, d10⟩ := doDefers_spec hdd
      have hdef : c2.deferred = [] := d3 rfl
      refine ⟨rfl, hdef, ?_⟩
      rw [hdef, show entryIds ([] : List DeferEntry) = [] from rfl, List.append_nil] at b1
      rw [hc1def] at b1
      exact b1
  · intro cmd rest c ev c' v hstep
    simp only [runBody, hstep]

/-- The core used in the C5 witness: one registered cleanup entry and no
pending error. -/
def c5Core : Core := ⟨[], false, [.entry ⟨4, fun _ => .ok⟩], none, none⟩

theorem C5_must_semantics_witness :
    runSiteChain c5Core (.user 1) [] = ([], some (.user 1)) ∧
    (∃ evd c2 v, processError c5Core (.user 1) [] =
      ([] ++ (if c5Core.err = none then [Event.errWrite false (.user 1)] else []) ++ evd,
        c2, some v) ∧
      c2.err = (if c5Core.err = none then some (.user 1) else c5Core.err) ∧
      cleanIds evd ++ entryIds c2.deferred = entryIds c5Core.deferred ∧
      ((∀ d ∈ c5Core.deferred, EntryNoPanic d) → v = .err .ourPanic ∧ c2.deferred = [] ∧
        cleanIds evd = entryIds c5Core.deferred)) :=
  ⟨rfl, (C5_must_semantics).2.1 c5Core (.user 1) (.user 1) [] [] rfl⟩

/-- `bail` from a core with an occupied pending slot preserves the slot
(the drain's error processing never overwrites an occupied slot, and the
drain performs no fault writes). -/
theorem bail_err_preserved {c1 : Core} {evd : List Event} {c2 : Core} {v : PanicVal}
    (hb : bail c1 = (evd, c2, v)) (hsome : c1.err ≠ none) : c2.err = c1.err := by
  obtain ⟨b1, b2, b3, b4, b5, b6, b7, b8, b9⟩ := bail_spec hb
  obtain ⟨e0, he0⟩ := Option.ne_none_iff_exists'.mp hsome
  have b4' : userWritesOK (some e0) evd := by
    rw [← he0]
    exact b4
  have hall : allWrites evd = [] := allWrites_eq_nil (userWritesOK_some b4') b8
  rw [b3, trackErr_no_writes hall]

/-- C8: `IsSentinel(sentinel, err)` returns true when `err` equals the
sentinel, recording no block error and touching no state; returns false
when `err` is nil; and otherwise funnels `err` through the same
explicit-else-default handler pipeline as `Must`: if the chain clears the
error the call returns false without aborting, if the chain converts it to
the sentinel the call returns true without aborting, and in every other
case the processed error is stored (when none is pending) and the block
aborts. -/
theorem C8_sentinel (c : Core) (s : Err) (hs : List Handler) :
    isSentinelStep c s (some s) hs = ([.sentinelResult true], c, none) ∧
    isSentinelStep c s none hs = ([.sentinelResult false], c, none) ∧
    (∀ (e : Err) (ev : List Event), e ≠ s → runSiteChain c e hs = (ev, none) →
      isSentinelStep c s (some e) hs = (ev ++ [.sentinelResult false], c, none)) ∧
    (∀ (e : Err) (ev : List Event), e ≠ s → runSiteChain c e hs = (ev, some s) →
      isSentinelStep c s (some e) hs = (ev ++ [.sentinelResult true], c, none)) ∧
    (∀ (e : Err) (ev : List Event) (e' : Err), e ≠ s →
      runSiteChain c e hs = (ev, some e') → e' ≠ s →
      ∃ evd c2 v, isSentinelStep c s (some e) hs =
        (ev ++ (if c.err = none then [Event.errWrite false e'] else []) ++ evd,
          c2, some v) ∧
        c2.err = (if c.err = none then some e' else c.err)) := by
  refine ⟨?_, rfl, ?_, ?_, ?_⟩
  · simp [isSentinelStep]
  · intro e ev he hsc
    simp only [isSentinelStep, if_neg he, processErrorSentinel, hsc]
  · intro e ev he hsc
    simp only [isSentinelStep, if_neg he, processErrorSentinel, hsc, if_pos]
  · intro e ev e' he hsc he'
    by_cases hce : c.err = none
    · rcases hb : bail { c with err := some e' } with ⟨evd, c2, v⟩
      refine ⟨evd, c2, v, ?_, ?_⟩
      · simp only [isSentinelStep, if_neg he, processErrorSentinel, hsc, if_neg he',
          if_pos hce, hb, if_pos (show c.err = none from hce)]
      · have hsome : ({ c with err := some e' } : Core).err ≠ none := by simp
        have := bail_err_preserved hb hsome
        rw [this, if_pos hce]
    · rcases hb : bail c with ⟨evd, c2, v⟩
      refine ⟨evd, c2, v, ?_, ?_⟩
      · simp only [isSentinelStep, if_neg he, processErrorSentinel, hsc, if_neg he',
          if_neg hce, hb]
        simp [hce]
      · have := bail_err_preserved hb hce
        rw [this, if_neg hce]

/-- A handler converting every error to the sentinel `user 0`, for the C8
witness. -/
def c8ToSentinel : Handler := ⟨9, fun _ _ => some (.user 0)⟩

theorem C8_sentinel_witness :
    isSentinelStep (initCore [] none) (.user 0) (some (.user 0)) [] =
      ([.sentinelResult true], initCore [] none, none) ∧
    isSentinelStep (initCore [] none) (.user 0) none [] =
      ([.sentinelResult false], initCore [] none, none) ∧
    (∃ evd c2 v, isSentinelStep (initCore [] none) (.user 0) (some (.user 1)) [] =
      ([] ++ (if (initCore [] none).err = none then [Event.errWrite false (.user 1)]
        else []) ++ evd, c2, some v) ∧
      c2.err = (if (initCore [] none).err = none then some (.user 1)
        else (initCore [] none).err)) ∧
    isSentinelStep (initCore [] none) (.user 0) (some (.user 1)) [c8ToSentinel] =
      ([Event.handlerRun false 9 none (.user 1)] ++ [.sentinelResult true],
        initCore [] none, none) := by
  obtain ⟨h1, h2, h3, h4, h5⟩ := C8_sentinel (initCore [] none) (.user 0) []
  obtain ⟨hh1, hh2, hh3, hh4, hh5⟩ := C8_sentinel (initCore [] none) (.user 0) [c8ToSentinel]
  exact ⟨h1, h2, h5 (.user 1) [] (.user 1) (by decide) rfl (by decide),
    hh4 (.user 1) [Event.handlerRun false 9 none (.user 1)] (by decide) rfl⟩

/-- C10 (amended): during every handler invocation at a checked-error or
cleanup-error site, the `State` reports via `Err()` exactly the pendingError
recorded before that site's chain began — in particular nil while the first
error of the execution is still in its chain — and the pending slot is
written only after the site's chain has finished (the write event follows
all of the chain's handler events).  The reported value can, however,
coincide with the error being handled when an equal error value was
recorded earlier — see the counterexample to the claim's "never" clause. -/
theorem C10_state_err (c : Core) (err : Err) :
    (∀ (hs : List Handler) (ev : List Event) (c' : Core) (r : Option Err),
      processErrorCore c err hs = (ev, c', r) →
      (∀ f i seen input, Event.handlerRun f i seen input ∈ ev → seen = c.err) ∧
      ∃ w, ev = (runSiteChain c err hs).1 ++ w ∧
        ∀ x ∈ w, ∃ e, x = Event.errWrite false e) ∧
    (∀ (ev : List Event) (r : Option Err),
      processDeferError c err = (ev, r) →
      (∀ f i seen input, Event.handlerRun f i seen input ∈ ev → seen = c.err) ∧
      ∃ w, ev = (runSiteChain c err (markerHandlers c.deferred)).1 ++ w ∧
        ∀ x ∈ w, ∃ e, x = Event.errWrite false e) ∧
    (∀ (hs : List Handler) (ev : List Event) (c' : Core) (r : Option Err),
      processErrorCore c err hs = (ev, c', r) → c.err = none →
      ∀ f i seen input, Event.handlerRun f i seen input ∈ ev → seen = none) := by
  have hmem : ∀ (hs : List Handler) (ev : List Event),
      (∃ w, ev = (runSiteChain c err hs).1 ++ w ∧
        ∀ x ∈ w, ∃ e, x = Event.errWrite false e) →
      ∀ f i seen input, Event.handlerRun f i seen input ∈ ev → seen = c.err := by
    rintro hs ev ⟨w, rfl, hw⟩ f i seen input hin
    rcases List.mem_append.mp hin with hin | hin
    · obtain ⟨f', i', e', hx⟩ := runSiteChain_events _ hin
      obtain ⟨_, _, h3, _⟩ := Event.handlerRun.inj hx
      exact h3
    · obtain ⟨e, hx⟩ := hw _ hin
      exact Event.noConfusion hx
  refine ⟨?_, ?_, ?_⟩
  · intro hs ev c' r h
    have hd := processErrorCore_events_from_chain h
    exact ⟨hmem hs ev hd, hd⟩
  · intro ev r h
    have hd := processDeferError_events_from_chain h
    exact ⟨hmem _ ev hd, hd⟩
  · intro hs ev c' r h hce f i seen input hin
    have hd := processErrorCore_events_from_chain h
    rw [← hce]
    exact hmem hs ev hd f i seen input hin

/-- The block used to refute C10's "never" clause: the pending error
`user 1` is recorded by the failing check, and the cleanup entry then fails
with the same error value; its attached handler is invoked with
`State.Err() = user 1` while handling `user 1` itself. -/
def c10Program : List Cmd :=
  [.deferCmd (.supported ⟨3, fun _ => .fail (.user 1)⟩) [⟨7, fun _ e => some e⟩],
   .must (some (.user 1)) []]

/-- C10 counterexample: a handler invocation whose `State` reports exactly
the error value currently being handled, contradicting the claim that the
`State` "never" reports the error being handled. -/
theorem C10_counterexample :
    Event.handlerRun false 7 (some (.user 1)) (.user 1) ∈
      (runScope [] c10Program).events := by decide

theorem C10_state_err_witness :
    processErrorCore (initCore [] none) (.user 1) [⟨7, fun _ e => some e⟩] =
      ([.handlerRun false 7 none (.user 1), .errWrite false (.user 1)],
        { initCore [] none with err := some (.user 1) }, some (.user 1)) ∧
    (∀ f i seen input, Event.handlerRun f i seen input ∈
        [Event.handlerRun false 7 none (.user 1), Event.errWrite false (.user 1)] →
      seen = none) := by
  have hpec : processErrorCore (initCore [] none) (.user 1) [⟨7, fun _ e => some e⟩] =
      ([.handlerRun false 7 none (.user 1), .errWrite false (.user 1)],
        { initCore [] none with err := some (.user 1) }, some (.user 1)) := rfl
  exact ⟨hpec, (C10_state_err (initCore [] none) (.user 1)).2.2 _ _ _ _ hpec rfl⟩

/-! ## Confinement of the internal abort signal (C4) -/

/-- A user handler cannot return the engine's internal abort-signal error
(`errOurPanic` is unexported in Go). -/
def HandlerOK (h : Handler) : Prop := ∀ v e, h.run v e ≠ some .ourPanic

/-- A cleanup invocation cannot return or panic with the internal abort
signal (unexported in Go). -/
def ActionOK (a : DeferAction) : Prop :=
  ∀ v, a.run v ≠ .fail .ourPanic ∧ a.run v ≠ .panic' (.err .ourPanic)

def EntryOK : DeferEntry → Prop
  | .handler h => HandlerOK h
  | .entry a => ActionOK a

/-- A callback command cannot forge the internal abort signal: checked
errors, sentinel arguments and panic values are never `errOurPanic`, and
all embedded handlers and cleanup functions are likewise unable to produce
it. -/
def CmdOK : Cmd → Prop
  | .must err hs => err ≠ some .ourPanic ∧ ∀ h ∈ hs, HandlerOK h
  | .deferCmd .nilArg _ => True
  | .deferCmd (.supported a) hs => ActionOK a ∧ ∀ h ∈ hs, HandlerOK h
  | .deferCmd (.unsupported _) hs => ∀ h ∈ hs, HandlerOK h
  | .deferFuncCmd none _ => True
  | .deferFuncCmd (some a) hs => ActionOK a ∧ ∀ h ∈ hs, HandlerOK h
  | .panicCmd v => v ≠ .err .ourPanic
  | .isSentinelCmd _ err hs => err ≠ some .ourPanic ∧ ∀ h ∈ hs, HandlerOK h

/-- No event of the trace exposes the abort signal's error value: neither
as the `State.Err()` shown to a handler or cleanup function, nor as a value
written to the pending slot. -/
def EventSeenOK : Event → Prop
  | .handlerRun _ _ seen _ => seen ≠ some .ourPanic
  | .cleanup _ seen => seen ≠ some .ourPanic
  | .errWrite _ e => e ≠ .ourPanic
  | .registered _ => True
  | .sentinelResult _ => True

/-- The abort signal is confined in a core: the pending slot never holds
it, and no configured or pending handler or cleanup can produce it. -/
def CoreOK (c : Core) : Prop :=
  c.err ≠ some .ourPanic ∧ (∀ h ∈ c.defaultHandlers, HandlerOK h) ∧
  ∀ d ∈ c.deferred, EntryOK d

theorem runChain_ok {flag : Bool} {c : Core} {hs : List Handler} {err : Err}
    (hh : ∀ h ∈ hs, HandlerOK h) (he : err ≠ .ourPanic) (hc : c.err ≠ some .ourPanic) :
    (∀ x ∈ (runChain flag c hs err).1, EventSeenOK x) ∧
    (runChain flag c hs err).2 ≠ some .ourPanic := by
  induction hs generalizing err with
  | nil =>
    refine ⟨by simp [runChain], ?_⟩
    simp only [runChain]
    intro hcon
    exact he (Option.some.inj hcon)
  | cons h hs ih =>
    simp only [runChain]
    match hrun : h.run c.view err with
    | none =>
      refine ⟨?_, by simp⟩
      intro x hx
      simp at hx
      subst hx
      exact hc
    | some err' =>
      have he' : err' ≠ .ourPanic := by
        intro hcon
        exact hh h (by simp) c.view err (hcon ▸ hrun)
      obtain ⟨ih1, ih2⟩ := ih (fun h' hm => hh h' (by simp [hm])) he'
      refine ⟨?_, ih2⟩
      intro x hx
      simp at hx
      rcases hx with hx | hx
      · subst hx
        exact hc
      · exact ih1 x hx

theorem runSiteChain_ok {c : Core} {err : Err} {handlers : List Handler}
    (hh : ∀ h ∈ handlers, HandlerOK h) (hd : ∀ h ∈ c.defaultHandlers, HandlerOK h)
    (he : err ≠ .ourPanic) (hc : c.err ≠ some .ourPanic) :
    (∀ x ∈ (runSiteChain c err handlers).1, EventSeenOK x) ∧
    (runSiteChain c err handlers).2 ≠ some .ourPanic := by
  rcases List.eq_nil_or_concat' handlers with hn | ⟨_, _, hn⟩
  · subst hn
    rw [runSiteChain_nil]
    exact runChain_ok hd he hc
  · rw [runSiteChain_of_ne_nil (by simp [hn])]
    exact runChain_ok hh he hc

/-- Handlers found among the top markers of the deferred stack belong to
the stack. -/
theorem markerHandlers_mem {l : List DeferEntry} {h : Handler}
    (hm : h ∈ markerHandlers l) : DeferEntry.handler h ∈ l := by
  unfold markerHandlers at hm
  obtain ⟨d, hd, hfd⟩ := List.mem_filterMap.mp hm
  have hdl : d ∈ l := (List.takeWhile_sublist _).subset hd
  match d, hfd with
  | .handler h', heq =>
    obtain rfl := Option.some.inj heq
    exact hdl

theorem processDeferError_ok {c : Core} {err : Err} {ev : List Event} {r : Option Err}
    (h : processDeferError c err = (ev, r)) (hok : CoreOK c) (he : err ≠ .ourPanic) :
    (∀ x ∈ ev, EventSeenOK x) ∧ r ≠ some .ourPanic := by
  obtain ⟨hc, hd, hent⟩ := hok
  have hmh : ∀ h' ∈ markerHandlers c.deferred, HandlerOK h' := by
    intro h' hm
    exact hent (.handler h') (markerHandlers_mem hm)
  obtain ⟨hsc1, hsc2⟩ := runSiteChain_ok hmh hd he hc
  unfold processDeferError at h
  split at h
  next ev1 hsc =>
    simp only [Prod.mk.injEq] at h
    obtain ⟨rfl, rfl⟩ := h
    exact ⟨fun x hx => hsc1 x (by rw [hsc]; exact hx), hc⟩
  next ev1 e1 hsc =>
    have he1 : e1 ≠ .ourPanic := by
      intro hcon
      rw [hsc, hcon] at hsc2
      exact hsc2 rfl
    split at h
    next hce =>
      simp only [Prod.mk.injEq] at h
      obtain ⟨rfl, rfl⟩ := h
      refine ⟨?_, by simpa using he1⟩
      intro x hx
      rcases List.mem_append.mp hx with hx | hx
      · exact hsc1 x (by rw [hsc]; exact hx)
      · simp at hx
        subst hx
        exact he1
    next hce =>
      simp only [Prod.mk.injEq] at h
      obtain ⟨rfl, rfl⟩ := h
      exact ⟨fun x hx => hsc1 x (by rw [hsc]; exact hx), hc⟩

theorem doDefersGo_ok (l : List DeferEntry) :
    ∀ (c : Core) {ev : List Event} {c' : Core} {p : Option PanicVal},
    doDefersGo l c = (ev, c', p) → c.deferred = l →
    (∀ d ∈ l, EntryOK d) → (∀ h ∈ c.defaultHandlers, HandlerOK h) →
    c.err ≠ some .ourPanic →
    (∀ x ∈ ev, EventSeenOK x) ∧ c'.err ≠ some .ourPanic ∧
    (∀ d ∈ c'.deferred, EntryOK d) ∧ p ≠ some (.err .ourPanic) := by
  induction l with
  | nil =>
    intro c ev c' p h hsync hl hdef hce
    simp only [doDefersGo, Prod.mk.injEq] at h
    obtain ⟨rfl, rfl, rfl⟩ := h
    exact ⟨by simp, hce, hsync ▸ hl, by simp⟩
  | cons d rest ih =>
    intro c ev c' p h hsync hl hdef hce
    have hrest : ∀ d' ∈ rest, EntryOK d' := fun d' hm => hl d' (by simp [hm])
    match d with
    | .handler hh =>
      simp only [doDefersGo] at h
      exact ih { c with deferred := rest } h rfl hrest hdef hce
    | .entry a =>
      have haok : ActionOK a := hl (.entry a) (by simp)
      simp only [doDefersGo] at h
      set c1 : Core := { c with deferred := rest } with hc1
      split at h
      next heq =>
        rcases hrec : doDefersGo rest c1 with ⟨evs, cr, pr⟩
        rw [hrec] at h
        simp only [Prod.mk.injEq] at h
        obtain ⟨rfl, rfl, rfl⟩ := h
        obtain ⟨i1, i2, i3, i4⟩ := ih c1 hrec rfl hrest hdef hce
        refine ⟨?_, i2, i3, i4⟩
        intro x hx
        rcases List.mem_cons.mp hx with hx | hx
        · subst hx
          exact hce
        · exact i1 x hx
      next err heq =>
        have herr : err ≠ .ourPanic := by
          intro hcon
          exact (haok c1.view).1 (hcon ▸ heq)
        rcases hpde : processDeferError c1 err with ⟨ev1, newErr⟩
        rw [hpde] at h
        rcases hrec : doDefersGo rest { c1 with err := newErr } with ⟨evs, cr, pr⟩
        rw [hrec] at h
        simp only [Prod.mk.injEq] at h
        obtain ⟨rfl, rfl, rfl⟩ := h
        obtain ⟨q1, q2⟩ := processDeferError_ok hpde ⟨hce, hdef, hrest⟩ herr
        obtain ⟨i1, i2, i3, i4⟩ := ih { c1 with err := newErr } hrec rfl hrest hdef q2
        refine ⟨?_, i2, i3, i4⟩
        intro x hx
        rcases List.mem_cons.mp hx with hx | hx
        · subst hx
          exact hce
        · rcases List.mem_append.mp hx with hx | hx
          · exact q1 x hx
          · exact i1 x hx
      next v heq =>
        have hv : v ≠ .err .ourPanic := by
          intro hcon
          exact (haok c1.view).2 (hcon ▸ heq)
        simp only [Prod.mk.injEq] at h
        obtain ⟨rfl, rfl, rfl⟩ := h
        refine ⟨?_, hce, hrest, by simpa using hv⟩
        intro x hx
        simp at hx
        subst hx
        exact hce

theorem doDefers_ok {c : Core} {ev : List Event} {c' : Core} {p : Option PanicVal}
    (h : doDefers c = (ev, c', p)) (hok : CoreOK c) :
    (∀ x ∈ ev, EventSeenOK x) ∧ c'.err ≠ some .ourPanic ∧
    (∀ d ∈ c'.deferred, EntryOK d) ∧ p ≠ some (.err .ourPanic) :=
  doDefersGo_ok c.deferred c h rfl hok.2.2 hok.2.1 hok.1

theorem bail_ok {c : Core} {ev : List Event} {c' : Core} {v : PanicVal}
    (h : bail c = (ev, c', v)) (hok : CoreOK c) :
    (∀ x ∈ ev, EventSeenOK x) ∧ c'.err ≠ some .ourPanic ∧
    (∀ d ∈ c'.deferred, EntryOK d) ∧ (v = .err .ourPanic → c'.deferred = []) := by
  unfold bail at h
  split at h
  next c1 hdd =>
    simp only [Prod.mk.injEq] at h
    obtain ⟨rfl, rfl, rfl⟩ := h
    obtain ⟨o1, o2, o3, _⟩ := doDefers_ok hdd hok
    obtain ⟨_, _, hcomp, _⟩ := doDefers_spec hdd
    exact ⟨o1, o2, o3, fun _ => hcomp rfl⟩
  next c1 v1 hdd =>
    simp only [Prod.mk.injEq] at h
    obtain ⟨rfl, rfl, rfl⟩ := h
    obtain ⟨o1, o2, o3, o4⟩ := doDefers_ok hdd hok
    exact ⟨o1, o2, o3, fun hcon => absurd (congrArg some hcon) o4⟩

theorem processErrorCore_ok {c : Core} {err : Err} {hs : List Handler}
    {ev : List Event} {c1 : Core} {r : Option Err}
    (h : processErrorCore c err hs = (ev, c1, r))
    (hok : CoreOK c) (hh : ∀ h' ∈ hs, HandlerOK h') (he : err ≠ .ourPanic) :
    (∀ x ∈ ev, EventSeenOK x) ∧ CoreOK c1 ∧ r ≠ some .ourPanic := by
  obtain ⟨hc, hd, hent⟩ := hok
  obtain ⟨hsc1, hsc2⟩ := runSiteChain_ok hh hd he hc
  unfold processErrorCore at h
  split at h
  next hsc =>
    simp only [Prod.mk.injEq] at h
    obtain ⟨rfl, rfl, rfl⟩ := h
    exact ⟨fun x hx => hsc1 x (by rw [hsc]; exact hx), ⟨hc, hd, hent⟩, by simp⟩
  next err' hsc =>
    have he' : err' ≠ .ourPanic := by
      intro hcon
      rw [hsc, hcon] at hsc2
      exact hsc2 rfl
    split at h
    next hce =>
      simp only [Prod.mk.injEq] at h
      obtain ⟨rfl, rfl, rfl⟩ := h
      refine ⟨?_, ⟨by simpa using he', hd, hent⟩, by simpa using he'⟩
      intro x hx
      rcases List.mem_append.mp hx with hx | hx
      · exact hsc1 x (by rw [hsc]; exact hx)
      · simp at hx
        subst hx
        exact he'
    next hce =>
      simp only [Prod.mk.injEq] at h
      obtain ⟨rfl, rfl, rfl⟩ := h
      exact ⟨fun x hx => hsc1 x (by rw [hsc]; exact hx), ⟨hc, hd, hent⟩, by simpa using he'⟩

theorem processError_ok {c : Core} {err : Err} {hs : List Handler}
    {ev : List Event} {c' : Core} {p : Option PanicVal}
    (h : processError c err hs = (ev, c', p))
    (hok : CoreOK c) (hh : ∀ h' ∈ hs, HandlerOK h') (he : err ≠ .ourPanic) :
    (∀ x ∈ ev, EventSeenOK x) ∧ CoreOK c' ∧
    (p = some (.err .ourPanic) → c'.err ≠ none ∧ c'.deferred = []) := by
  unfold processError at h
  split at h
  next c1 hpec =>
    simp only [Prod.mk.injEq] at h
    obtain ⟨rfl, rfl, rfl⟩ := h
    obtain ⟨o1, o2, _⟩ := processErrorCore_ok hpec hok hh he
    exact ⟨o1, o2, fun hp => Option.noConfusion hp⟩
  next ev1 c1 e1 hpec =>
    rcases hb : bail c1 with ⟨ev2, c2, v2⟩
    rw [hb] at h
    simp only [Prod.mk.injEq] at h
    obtain ⟨rfl, rfl, rfl⟩ := h
    obtain ⟨o1, o2, _⟩ := processErrorCore_ok hpec hok hh he
    obtain ⟨b1, b2, b3, b4⟩ := bail_ok hb o2
    obtain ⟨_, _, s3, _, s5, _⟩ := bail_spec hb
    obtain ⟨hsome, _, _⟩ := processErrorCore_some hpec
    refine ⟨?_, ⟨b2, s5 ▸ o2.2.1, b3⟩, ?_⟩
    · intro x hx
      rcases List.mem_append.mp hx with hx | hx
      · exact o1 x hx
      · exact b1 x hx
    · intro hp
      obtain rfl := Option.some.inj hp
      refine ⟨?_, b4 rfl⟩
      obtain ⟨e, he1⟩ := Option.ne_none_iff_exists'.mp hsome
      rw [s3, he1]
      exact trackErr_ne_none ev2

theorem processErrorSentinel_ok {c : Core} {err sentinel : Err} {hs : List Handler}
    {ev : List Event} {c' : Core} {b : Bool} {p : Option PanicVal}
    (h : processErrorSentinel c err sentinel hs = (ev, c', b, p))
    (hok : CoreOK c) (hh : ∀ h' ∈ hs, HandlerOK h') (he : err ≠ .ourPanic) :
    (∀ x ∈ ev, EventSeenOK x) ∧ CoreOK c' ∧
    (p = some (.err .ourPanic) → c'.err ≠ none ∧ c'.deferred = []) := by
  obtain ⟨hc, hd, hent⟩ := hok
  obtain ⟨hsc1, hsc2⟩ := runSiteChain_ok hh hd he hc
  unfold processErrorSentinel at h
  split at h
  next ev1 hsc =>
    simp only [Prod.mk.injEq] at h
    obtain ⟨rfl, rfl, rfl, rfl⟩ := h
    exact ⟨fun x hx => hsc1 x (by rw [hsc]; exact hx), ⟨hc, hd, hent⟩,
      fun hp => Option.noConfusion hp⟩
  next ev1 err' hsc =>
    have he' : err' ≠ .ourPanic := by
      intro hcon
      rw [hsc, hcon] at hsc2
      exact hsc2 rfl
    have hev1 : ∀ x ∈ ev1, EventSeenOK x := fun x hx => hsc1 x (by rw [hsc]; exact hx)
    split at h
    next heq =>
      simp only [Prod.mk.injEq] at h
      obtain ⟨rfl, rfl, rfl, rfl⟩ := h
      exact ⟨hev1, ⟨hc, hd, hent⟩, fun hp => Option.noConfusion hp⟩
    next heq =>
      by_cases hce : c.err = none
      · rw [if_pos (by exact hce)] at h
        rcases hb : bail { c with err := some err' } with ⟨ev2, c2, v2⟩
        rw [hb] at h
        simp only [Prod.mk.injEq] at h
        obtain ⟨rfl, rfl, rfl, rfl⟩ := h
        obtain ⟨b1, b2, b3, b4⟩ := bail_ok hb ⟨by simpa using he', hd, hent⟩
        obtain ⟨_, _, s3, _, s5, _⟩ := bail_spec hb
        refine ⟨?_, ⟨b2, s5 ▸ hd, b3⟩, ?_⟩
        · intro x hx
          rcases List.mem_append.mp hx with hx | hx
          · rcases List.mem_append.mp hx with hx | hx
            · exact hev1 x hx
            · simp at hx
              subst hx
              exact he'
          · exact b1 x hx
        · intro hp
          obtain rfl := Option.some.inj hp
          refine ⟨?_, b4 rfl⟩
          rw [s3]
          exact trackErr_ne_none ev2
      · rw [if_neg (by exact hce)] at h
        rcases hb : bail c with ⟨ev2, c2, v2⟩
        rw [hb] at h
        simp only [Prod.mk.injEq] at h
        obtain ⟨rfl, rfl, rfl, rfl⟩ := h
        obtain ⟨b1, b2, b3, b4⟩ := bail_ok hb ⟨hc, hd, hent⟩
        obtain ⟨_, _, s3, _, s5, _⟩ := bail_spec hb
        refine ⟨?_, ⟨b2, s5 ▸ hd, b3⟩, ?_⟩
        · intro x hx
          rcases List.mem_append.mp hx with hx | hx
          · exact hev1 x hx
          · exact b1 x hx
        · intro hp
          obtain rfl := Option.some.inj hp
          refine ⟨?_, b4 rfl⟩
          obtain ⟨e, he1⟩ := Option.ne_none_iff_exists'.mp hce
          rw [s3, he1]
          exact trackErr_ne_none ev2

theorem isSentinelStep_ok {c : Core} {s : Err} {oerr : Option Err} {hs : List Handler}
    {ev : List Event} {c' : Core} {p : Option PanicVal}
    (h : isSentinelStep c s oerr hs = (ev, c', p))
    (hok : CoreOK c) (hh : ∀ h' ∈ hs, HandlerOK h') (he : oerr ≠ some .ourPanic) :
    (∀ x ∈ ev, EventSeenOK x) ∧ CoreOK c' ∧
    (p = some (.err .ourPanic) → c'.err ≠ none ∧ c'.deferred = []) := by
  unfold isSentinelStep at h
  split at h
  next =>
    simp only [Prod.mk.injEq] at h
    obtain ⟨rfl, rfl, rfl⟩ := h
    exact ⟨by simp [EventSeenOK], hok, fun hp => Option.noConfusion hp⟩
  next e =>
    have he' : e ≠ .ourPanic := fun hcon => he (by rw [hcon])
    split at h
    next heq =>
      simp only [Prod.mk.injEq] at h
      obtain ⟨rfl, rfl, rfl⟩ := h
      exact ⟨by simp [EventSeenOK], hok, fun hp => Option.noConfusion hp⟩
    next heq =>
      split at h
      next ev1 c1 b hps =>
        simp only [Prod.mk.injEq] at h
        obtain ⟨rfl, rfl, rfl⟩ := h
        obtain ⟨o1, o2, _⟩ := processErrorSentinel_ok hps hok hh he'
        refine ⟨?_, o2, fun hp => Option.noConfusion hp⟩
        intro x hx
        rcases List.mem_append.mp hx with hx | hx
        · exact o1 x hx
        · simp at hx
          subst hx
          trivial
      next ev1 c1 b v hps =>
        simp only [Prod.mk.injEq] at h
        obtain ⟨rfl, rfl, rfl⟩ := h
        obtain ⟨o1, o2, o3⟩ := processErrorSentinel_ok hps hok hh he'
        exact ⟨o1, o2, o3⟩

theorem stepCmd_ok {cmd : Cmd} {c : Core} {ev : List Event} {c' : Core} {p : Option PanicVal}
    (h : stepCmd cmd c = (ev, c', p)) (hok : CoreOK c) (hcmd : CmdOK cmd) :
    (∀ x ∈ ev, EventSeenOK x) ∧ CoreOK c' ∧
    (p = some (.err .ourPanic) → c'.err ≠ none ∧ c'.deferred = []) := by
  obtain ⟨hc, hd, hent⟩ := hok
  match cmd with
  | .must none hs =>
    simp only [stepCmd, Prod.mk.injEq] at h
    obtain ⟨rfl, rfl, rfl⟩ := h
    exact ⟨by simp, ⟨hc, hd, hent⟩, fun hp => Option.noConfusion hp⟩
  | .must (some e) hs =>
    obtain ⟨he, hh⟩ := hcmd
    simp only [stepCmd] at h
    exact processError_ok h ⟨hc, hd, hent⟩ hh (fun hcon => he (by rw [hcon]))
  | .deferCmd .nilArg hs =>
    simp only [stepCmd, Prod.mk.injEq] at h
    obtain ⟨rfl, rfl, rfl⟩ := h
    exact ⟨by simp, ⟨hc, hd, hent⟩, fun hp => Option.noConfusion hp⟩
  | .deferCmd (.supported a) hs =>
    obtain ⟨ha, hh⟩ := hcmd
    simp only [stepCmd, Prod.mk.injEq] at h
    obtain ⟨rfl, rfl, rfl⟩ := h
    refine ⟨by simp [EventSeenOK], ⟨hc, hd, ?_⟩, fun hp => Option.noConfusion hp⟩
    intro d hm
    simp only [pushDefer] at hm
    rcases List.mem_cons.mp hm with hm | hm
    · subst hm
      exact ha
    · rcases List.mem_append.mp hm with hm | hm
      · obtain ⟨h0, hm0, rfl⟩ := List.mem_map.mp hm
        exact hh h0 hm0
      · exact hent d hm
  | .deferCmd (.unsupported ty) hs =>
    have hh := hcmd
    simp only [stepCmd, Prod.mk.injEq] at h
    obtain ⟨rfl, rfl, rfl⟩ := h
    refine ⟨by simp, ⟨hc, hd, ?_⟩, ?_⟩
    · intro d hm
      rcases List.mem_append.mp hm with hm | hm
      · obtain ⟨h0, hm0, rfl⟩ := List.mem_map.mp hm
        exact hh h0 hm0
      · exact hent d hm
    · intro hp
      simp at hp
  | .deferFuncCmd none hs =>
    simp only [stepCmd, Prod.mk.injEq] at h
    obtain ⟨rfl, rfl, rfl⟩ := h
    refine ⟨by simp, ⟨hc, hd, hent⟩, ?_⟩
    intro hp
    simp at hp
  | .deferFuncCmd (some a) hs =>
    obtain ⟨ha, hh⟩ := hcmd
    simp only [stepCmd, Prod.mk.injEq] at h
    obtain ⟨rfl, rfl, rfl⟩ := h
    refine ⟨by simp [EventSeenOK], ⟨hc, hd, ?_⟩, fun hp => Option.noConfusion hp⟩
    intro d hm
    simp only [pushDefer] at hm
    rcases List.mem_cons.mp hm with hm | hm
    · subst hm
      exact ha
    · rcases List.mem_append.mp hm with hm | hm
      · obtain ⟨h0, hm0, rfl⟩ := List.mem_map.mp hm
        exact hh h0 hm0
      · exact hent d hm
  | .panicCmd v =>
    have hv := hcmd
    simp only [stepCmd, Prod.mk.injEq] at h
    obtain ⟨rfl, rfl, rfl⟩ := h
    refine ⟨by simp, ⟨hc, hd, hent⟩, ?_⟩
    intro hp
    exact absurd (Option.some.inj hp) hv
  | .isSentinelCmd s e hs =>
    obtain ⟨he, hh⟩ := hcmd
    simp only [stepCmd] at h
    exact isSentinelStep_ok h ⟨hc, hd, hent⟩ hh he

theorem runBody_ok (cmds : List Cmd) :
    ∀ (c : Core) {ev : List Event} {c' : Core} {p : Option PanicVal},
    runBody cmds c = (ev, c', p) → CoreOK c → (∀ cmd ∈ cmds, CmdOK cmd) →
    (∀ x ∈ ev, EventSeenOK x) ∧ CoreOK c' ∧
    (p = some (.err .ourPanic) → c'.err ≠ none ∧ c'.deferred = []) := by
  induction cmds with
  | nil =>
    intro c ev c' p h hok hcmds
    simp only [runBody, Prod.mk.injEq] at h
    obtain ⟨rfl, rfl, rfl⟩ := h
    exact ⟨by simp, hok, fun hp => Option.noConfusion hp⟩
  | cons cmd rest ih =>
    intro c ev c' p h hok hcmds
    simp only [runBody] at h
    split at h
    next ev1 c1 hstep =>
      rcases hrec : runBody rest c1 with ⟨ev2, c2, p2⟩
      rw [hrec] at h
      simp only [Prod.mk.injEq] at h
      obtain ⟨rfl, rfl, rfl⟩ := h
      obtain ⟨s1, s2, _⟩ := stepCmd_ok hstep hok (hcmds cmd (by simp))
      obtain ⟨i1, i2, i3⟩ := ih c1 hrec s2 (fun cm hm => hcmds cm (by simp [hm]))
      refine ⟨?_, i2, i3⟩
      intro x hx
      rcases List.mem_append.mp hx with hx | hx
      · exact s1 x hx
      · exact i1 x hx
    next ev1 c1 v hstep =>
      simp only [Prod.mk.injEq] at h
      obtain ⟨rfl, rfl, rfl⟩ := h
      exact stepCmd_ok hstep hok (hcmds cmd (by simp))

/-- `some (panicToError v)` never equals the stored abort signal when `v` is
not the abort panic itself. -/
theorem panicToError_store_ne {v : PanicVal} (h : v ≠ .err .ourPanic) :
    some (panicToError v) ≠ some Err.ourPanic :=
  fun hcon => panicToError_ne_ourPanic h (Option.some.inj hcon)

theorem doRecoverGo_ok (fuel : ℕ) :
    ∀ (c : Core) (slot : Option Err) (r : Option PanicVal) {ev : List Event} {c' : Core}
      {slot' : Option Err} {p' : Option PanicVal},
    doRecoverGo fuel c slot r = (ev, c', slot', p') →
    CoreOK c → c.deferred.length ≤ fuel →
    (∀ x ∈ ev, EventSeenOK x) ∧ c'.err ≠ some .ourPanic := by
  induction fuel with
  | zero =>
    intro c slot r ev c' slot' p' h hok hlen
    match r with
    | none =>
      rw [show doRecoverGo 0 c slot none = ([], c, slot, none) from rfl] at h
      simp only [Prod.mk.injEq] at h
      obtain ⟨rfl, rfl, rfl, rfl⟩ := h
      exact ⟨by simp, hok.1⟩
    | some v =>
      rw [show doRecoverGo 0 c slot (some v) =
        (if v = PanicVal.err .ourPanic then ([], c, c.err, none)
         else ([Event.errWrite true (panicToError v)],
          { c with inPanic := true, err := some (panicToError v) }, slot, some v))
        from rfl] at h
      split at h
      next hv =>
        simp only [Prod.mk.injEq] at h
        obtain ⟨rfl, rfl, rfl, rfl⟩ := h
        exact ⟨by simp, hok.1⟩
      next hv =>
        simp only [Prod.mk.injEq] at h
        obtain ⟨rfl, rfl, rfl, rfl⟩ := h
        refine ⟨?_, panicToError_store_ne hv⟩
        intro x hx
        simp at hx
        subst hx
        exact panicToError_ne_ourPanic hv
  | succ fuel ih =>
    intro c slot r ev c' slot' p' h hok hlen
    match r with
    | none =>
      rw [show doRecoverGo (fuel + 1) c slot none = ([], c, slot, none) from rfl] at h
      simp only [Prod.mk.injEq] at h
      obtain ⟨rfl, rfl, rfl, rfl⟩ := h
      exact ⟨by simp, hok.1⟩
    | some v =>
      rw [show doRecoverGo (fuel + 1) c slot (some v) =
        (if v = PanicVal.err .ourPanic then
          match c.deferred with
          | [] => ([], c, c.err, none)
          | _ :: _ =>
            match doDefers c with
            | (ev1, c1, p1) =>
              match doRecoverGo fuel c1 slot p1 with
              | (ev2, c2, _, none) => (ev1 ++ ev2, c2, c2.err, none)
              | (ev2, c2, slot2, some v2) => (ev1 ++ ev2, c2, slot2, some v2)
        else
          match ({ c with inPanic := true, err := some (panicToError v) } : Core).deferred with
          | [] => ([Event.errWrite true (panicToError v)],
              { c with inPanic := true, err := some (panicToError v) }, slot, some v)
          | _ :: _ =>
            match doDefers { c with inPanic := true, err := some (panicToError v) } with
            | (ev1, c1, p1) =>
              match doRecoverGo fuel c1 slot p1 with
              | (ev2, c2, slot2, none) =>
                (Event.errWrite true (panicToError v) :: ev1 ++ ev2, c2, slot2, some v)
              | (ev2, c2, slot2, some v2) =>
                (Event.errWrite true (panicToError v) :: ev1 ++ ev2, c2, slot2, some v2))
        from rfl] at h
      split at h
      next hv =>
        split at h
        next heq =>
          simp only [Prod.mk.injEq] at h
          obtain ⟨rfl, rfl, rfl, rfl⟩ := h
          exact ⟨by simp, hok.1⟩
        next d l heq =>
          rcases hdd : doDefers c with ⟨ev1, c1, p1⟩
          simp only [hdd] at h
          rcases hrec : doRecoverGo fuel c1 slot p1 with ⟨ev2, c2, slot2, p2⟩
          obtain ⟨dd1, dd2, dd3, dd4, dd5, dd6, dd7, dd8, dd9, dd10⟩ := doDefers_spec hdd
          obtain ⟨o1, o2, o3, _⟩ := doDefers_ok hdd hok
          have hok1 : CoreOK c1 := ⟨o2, dd6 ▸ hok.2.1, o3⟩
          have hlen' : c1.deferred.length ≤ fuel := by
            match p1 with
            | none =>
              rw [dd3 rfl]
              simp
            | some v1 =>
              have hlt := dd10 v1 rfl
              omega
          obtain ⟨i1, i2⟩ := ih c1 slot p1 hrec hok1 hlen'
          have hev : ∀ x ∈ ev1 ++ ev2, EventSeenOK x := by
            intro x hx
            rcases List.mem_append.mp hx with hx | hx
            · exact o1 x hx
            · exact i1 x hx
          match p2 with
          | none =>
            simp only [hrec, Prod.mk.injEq] at h
            obtain ⟨rfl, rfl, rfl, rfl⟩ := h
            exact ⟨hev, i2⟩
          | some v2 =>
            simp only [hrec, Prod.mk.injEq] at h
            obtain ⟨rfl, rfl, rfl, rfl⟩ := h
            exact ⟨hev, i2⟩
      next hv =>
        split at h
        next heq =>
          simp only [Prod.mk.injEq] at h
          obtain ⟨rfl, rfl, rfl, rfl⟩ := h
          refine ⟨?_, panicToError_store_ne hv⟩
          intro x hx
          simp at hx
          subst hx
          exact panicToError_ne_ourPanic hv
        next d l heq =>
          rcases hdd : doDefers ({ c with inPanic := true, err := some (panicToError v) })
            with ⟨ev1, c1, p1⟩
          simp only [hdd] at h
          rcases hrec : doRecoverGo fuel c1 slot p1 with ⟨ev2, c2, slot2, p2⟩
          obtain ⟨dd1, dd2, dd3, dd4, dd5, dd6, dd7, dd8, dd9, dd10⟩ := doDefers_spec hdd
          obtain ⟨o1, o2, o3, _⟩ :=
            doDefers_ok hdd ⟨panicToError_store_ne hv, hok.2.1, hok.2.2⟩
          have hok1 : CoreOK c1 := ⟨o2, dd6 ▸ hok.2.1, o3⟩
          have hlen' : c1.deferred.length ≤ fuel := by
            match p1 with
            | none =>
              rw [dd3 rfl]
              simp
            | some v1 =>
              have hlt : c1.deferred.length < c.deferred.length := dd10 v1 rfl
              omega
          obtain ⟨i1, i2⟩ := ih c1 slot p1 hrec hok1 hlen'
          have hev : ∀ x ∈ Event.errWrite true (panicToError v) :: ev1 ++ ev2,
              EventSeenOK x := by
            intro x hx
            rcases List.mem_cons.mp hx with hx | hx
            · subst hx
              exact panicToError_ne_ourPanic hv
            · rcases List.mem_append.mp hx with hx | hx
              · exact o1 x hx
              · exact i1 x hx
          match p2 with
          | none =>
            simp only [hrec, Prod.mk.injEq] at h
            obtain ⟨rfl, rfl, rfl, rfl⟩ := h
            exact ⟨hev, i2⟩
          | some v2 =>
            simp only [hrec, Prod.mk.injEq] at h
            obtain ⟨rfl, rfl, rfl, rfl⟩ := h
            exact ⟨hev, i2⟩

theorem doRecover_ok {c : Core} {slot : Option Err} {r : Option PanicVal}
    {ev : List Event} {c' : Core} {slot' : Option Err} {p' : Option PanicVal}
    (h : doRecover c slot r = (ev, c', slot', p')) (hok : CoreOK c) :
    (∀ x ∈ ev, EventSeenOK x) ∧ c'.err ≠ some .ourPanic :=
  doRecoverGo_ok c.deferred.length c slot r h hok le_rfl

/-- C4: the internal abort signal (`errOurPanic`) is never surfaced to
caller code as an ordinary error.  For any configuration whose handlers,
cleanup functions and callback cannot forge the unexported sentinel
(`HandlerOK`/`CmdOK`, automatic in Go since `errOurPanic` is unexported):
(a) `Run`/`RunWithContext` never return it as the block's error value;
(b) no user handler or cleanup function ever observes it as the pending
error, and it is never written to the pending slot (every trace event is
`EventSeenOK`); and (c) whenever the callback unwinds with the abort
signal, a user-level pendingError is already stored and the stack already
drained, and `Run` returns exactly that stored error. -/
theorem C4_abort_signal_confined (defaults : List Handler) (ctx : Option ℕ)
    (cmds : List Cmd)
    (hdef : ∀ h ∈ defaults, HandlerOK h) (hcmds : ∀ cmd ∈ cmds, CmdOK cmd) :
    (∀ r, (runWithContext defaults ctx cmds).outcome = .ret r → r ≠ some .ourPanic) ∧
    (∀ x ∈ (runWithContext defaults ctx cmds).events, EventSeenOK x) ∧
    (∀ ev1 c1, runBody cmds (initCore defaults ctx) = (ev1, c1, some (.err .ourPanic)) →
      c1.err ≠ none ∧ (runWithContext defaults ctx cmds).outcome = .ret c1.err) := by
  have hok0 : CoreOK (initCore defaults ctx) :=
    ⟨fun hcon => Option.noConfusion hcon, hdef, by simp [initCore]⟩
  rcases hbody : runBody cmds (initCore defaults ctx) with ⟨ev1, c1, p1⟩
  obtain ⟨r1, r2, r3⟩ := runBody_ok cmds (initCore defaults ctx) hbody hok0 hcmds
  match p1 with
  | none =>
    rcases hdd : doDefers c1 with ⟨ev2, c2, p2⟩
    obtain ⟨d1, d2, d3, _⟩ := doDefers_ok hdd r2
    obtain ⟨_, _, _, _, _, dd6, _⟩ := doDefers_spec hdd
    have hok2 : CoreOK c2 := ⟨d2, dd6 ▸ r2.2.1, d3⟩
    match p2 with
    | none =>
      have hrun : runWithContext defaults ctx cmds = ⟨ev1 ++ ev2, c2, .ret c2.err⟩ := by
        unfold runWithContext
        simp only [hbody, hdd]
      rw [hrun]
      refine ⟨?_, ?_, ?_⟩
      · intro r hr
        obtain rfl := RunOutcome.ret.inj hr
        exact d2
      · intro x hx
        rcases List.mem_append.mp hx with hx | hx
        · exact r1 x hx
        · exact d1 x hx
      · intro ev1' c1' hb2
        simp only [Prod.mk.injEq] at hb2
        exact absurd hb2.2.2 (by simp)
    | some v =>
      rcases hdr : doRecover c2 none (some v) with ⟨ev3, c3, slot3, p3⟩
      obtain ⟨k1, k2⟩ := doRecover_ok hdr hok2
      obtain ⟨_, _, _, _, _, _, _, _, s9, _⟩ := doRecover_spec hdr
      match p3 with
      | none =>
        have hslot : slot3 = c3.err := by
          rcases s9 rfl with hs | ⟨hs, _⟩
          · exact hs
          · exact absurd hs (by simp)
        have hrun : runWithContext defaults ctx cmds = ⟨ev1 ++ ev2 ++ ev3, c3, .ret slot3⟩ := by
          unfold runWithContext
          simp only [hbody, hdd, hdr]
        rw [hrun]
        refine ⟨?_, ?_, ?_⟩
        · intro r hr
          obtain rfl := RunOutcome.ret.inj hr
          rw [hslot]
          exact k2
        · intro x hx
          rcases List.mem_append.mp hx with hx | hx
          · rcases List.mem_append.mp hx with hx | hx
            · exact r1 x hx
            · exact d1 x hx
          · exact k1 x hx
        · intro ev1' c1' hb2
          simp only [Prod.mk.injEq] at hb2
          exact absurd hb2.2.2 (by simp)
      | some v' =>
        have hrun : runWithContext defaults ctx cmds =
            ⟨ev1 ++ ev2 ++ ev3, c3, .panic' v'⟩ := by
          unfold runWithContext
          simp only [hbody, hdd, hdr]
        rw [hrun]
        refine ⟨?_, ?_, ?_⟩
        · intro r hr
          exact absurd hr (by simp)
        · intro x hx
          rcases List.mem_append.mp hx with hx | hx
          · rcases List.mem_append.mp hx with hx | hx
            · exact r1 x hx
            · exact d1 x hx
          · exact k1 x hx
        · intro ev1' c1' hb2
          simp only [Prod.mk.injEq] at hb2
          exact absurd hb2.2.2 (by simp)
  | some v =>
    rcases hdr : doRecover c1 none (some v) with ⟨ev3, c3, slot3, p3⟩
    obtain ⟨k1, k2⟩ := doRecover_ok hdr r2
    obtain ⟨_, _, _, _, _, _, _, _, s9, _⟩ := doRecover_spec hdr
    match p3 with
    | none =>
      have hslot : slot3 = c3.err := by
        rcases s9 rfl with hs | ⟨hs, _⟩
        · exact hs
        · exact absurd hs (by simp)
      have hrun : runWithContext defaults ctx cmds = ⟨ev1 ++ ev3, c3, .ret slot3⟩ := by
        unfold runWithContext
        simp only [hbody, hdr]
      rw [hrun]
      refine ⟨?_, ?_, ?_⟩
      · intro r hr
        obtain rfl := RunOutcome.ret.inj hr
        rw [hslot]
        exact k2
      · intro x hx
        rcases List.mem_append.mp hx with hx | hx
        · exact r1 x hx
        · exact k1 x hx
      · intro ev1' c1' hb2
        simp only [Prod.mk.injEq, Option.some.injEq] at hb2
        obtain ⟨rfl, rfl, rfl⟩ := hb2
        obtain ⟨herr1, hdef1⟩ := r3 rfl
        have hcomp : doRecover c1 none (some (PanicVal.err .ourPanic)) =
            ([], c1, c1.err, none) := by
          unfold doRecover
          rw [hdef1]
          rfl
        rw [hcomp] at hdr
        simp only [Prod.mk.injEq] at hdr
        obtain ⟨rfl, rfl, rfl, _⟩ := hdr
        exact ⟨herr1, rfl⟩
    | some v' =>
      have hrun : runWithContext defaults ctx cmds = ⟨ev1 ++ ev3, c3, .panic' v'⟩ := by
        unfold runWithContext
        simp only [hbody, hdr]
      rw [hrun]
      refine ⟨?_, ?_, ?_⟩
      · intro r hr
        exact absurd hr (by simp)
      · intro x hx
        rcases List.mem_append.mp hx with hx | hx
        · exact r1 x hx
        · exact k1 x hx
      · intro ev1' c1' hb2
        simp only [Prod.mk.injEq, Option.some.injEq] at hb2
        obtain ⟨rfl, rfl, rfl⟩ := hb2
        obtain ⟨herr1, hdef1⟩ := r3 rfl
        have hcomp : doRecover c1 none (some (PanicVal.err .ourPanic)) =
            ([], c1, c1.err, none) := by
          unfold doRecover
          rw [hdef1]
          rfl
        rw [hcomp] at hdr
        simp only [Prod.mk.injEq] at hdr
        exact absurd hdr.2.2.2 (by simp)

/-- Witness for C4: a block whose body checks the user error 1 with no
handlers.  The hypotheses are discharged at this concrete configuration and
the confinement conclusions follow by applying the theorem. -/
theorem C4_abort_signal_confined_witness :
    (∀ r, (runWithContext [] none [Cmd.must (some (Err.user 1)) []]).outcome =
        RunOutcome.ret r → r ≠ some Err.ourPanic) ∧
    (∀ x ∈ (runWithContext [] none [Cmd.must (some (Err.user 1)) []]).events,
        EventSeenOK x) ∧
    (∀ ev1 c1, runBody [Cmd.must (some (Err.user 1)) []] (initCore [] none) =
        (ev1, c1, some (.err .ourPanic)) →
      c1.err ≠ none ∧
        (runWithContext [] none [Cmd.must (some (Err.user 1)) []]).outcome =
          RunOutcome.ret c1.err) :=
  C4_abort_signal_confined [] none [Cmd.must (some (Err.user 1)) []]
    (by simp)
    (by
      intro cmd hm
      simp only [List.mem_singleton] at hm
      subst hm
      exact ⟨by decide, by simp⟩)
